import Mathlib

/-!
Verification development for the gorpa caching meta-build system.

The definitions below are shallow embeddings of the Go source: Go maps
become association lists manipulated with insert-or-replace semantics
(`mapInsert`), Go slices become `List`, fallible code returns `Except` or
`Option` (`none` models a runtime panic), and external effects (command
execution, content hashing) are passed in as function parameters.
-/

namespace Gorpa

/-! ## Association-list model of Go maps -/

/-- Go-map association list: `String` keys to `String` values. -/
abbrev Args := List (String × String)

/-- Insert-or-replace, modelling `m[k] = v` on a Go map. -/
def mapInsert (m : Args) (k v : String) : Args :=
  match m with
  | [] => [(k, v)]
  | (k0, v0) :: rest =>
    if k0 = k then (k, v) :: rest else (k0, v0) :: mapInsert rest k v

/-- Lookup of the first binding of `k`, modelling `m[k]` on a Go map
(keys are unique whenever the list was built with `mapInsert`). -/
def mapLookup (m : Args) (k : String) : Option String :=
  match m with
  | [] => none
  | (k0, v0) :: rest => if k0 = k then some v0 else mapLookup rest k

/-- Last binding of `k` in a plain iteration list: for a sequence of Go map
assignments `dst[k] = v` performed in list order, the last one wins. -/
def mapLookupLast (m : Args) (k : String) : Option String :=
  mapLookup m.reverse k

theorem mapLookup_cons (k0 v0 : String) (rest : Args) (k : String) :
    mapLookup ((k0, v0) :: rest) k = if k0 = k then some v0 else mapLookup rest k := rfl

theorem some_or (a : String) (o : Option String) : (some a).or o = some a := rfl

theorem none_or (o : Option String) : (Option.none).or o = o := rfl

theorem mapLookup_mapInsert (m : Args) (k v k' : String) :
    mapLookup (mapInsert m k v) k' = if k = k' then some v else mapLookup m k' := by
  induction m with
  | nil => simp [mapInsert, mapLookup]
  | cons hd tl ih =>
    obtain ⟨k0, v0⟩ := hd
    by_cases h0 : k0 = k
    · subst h0
      rw [show mapInsert ((k0, v0) :: tl) k0 v = (k0, v) :: tl from by simp [mapInsert]]
      by_cases h1 : k0 = k' <;> simp [mapLookup_cons, h1]
    · rw [show mapInsert ((k0, v0) :: tl) k v = (k0, v0) :: mapInsert tl k v from by
        simp [mapInsert, h0]]
      rw [mapLookup_cons, mapLookup_cons, ih]
      by_cases h1 : k0 = k'
      · have h2 : ¬k = k' := fun h => h0 (h1.trans h.symm)
        simp [h1, h2]
      · simp [h1]

/-- Insert every binding of `src` into `dst` with Go map assignment,
modelling `for k, v := range src { dst[k] = v }`. -/
def mapInsertAll (dst src : Args) : Args :=
  src.foldl (fun m kv => mapInsert m kv.1 kv.2) dst

/-! ## C5: merging of argument defaults (`loadApplication`, part_007 lines 305-327) -/

/-- Embeds part_007 lines 305-313: in nested mode the root application's
argument defaults are written into the inner application's defaults with
plain Go map assignment, i.e. the root value replaces the inner value for
every key it mentions. -/
def installRootDefaults (appDefaults rootDefaults : Args) : Args :=
  if rootDefaults.length > 0 then
    mapInsertAll appDefaults rootDefaults
  else
    appDefaults

/-- Embeds part_007 lines 316-327: each application default is copied into
the user argument map only when the key is not already set there. -/
def applyArgumentDefaults (args defaults : Args) : Args :=
  defaults.foldl
    (fun a kv => if (mapLookup a kv.1).isSome then a else mapInsert a kv.1 kv.2)
    args

theorem applyArgumentDefaults_lookup (args defaults : Args) (k : String) :
    mapLookup (applyArgumentDefaults args defaults) k =
      (mapLookup args k).or (mapLookup defaults k) := by
  induction defaults generalizing args with
  | nil =>
    show mapLookup args k = (mapLookup args k).or (mapLookup [] k)
    cases mapLookup args k <;> rfl
  | cons hd tl ih =>
    obtain ⟨k0, v0⟩ := hd
    have hstep : applyArgumentDefaults args ((k0, v0) :: tl) =
        applyArgumentDefaults
          (if (mapLookup args k0).isSome then args else mapInsert args k0 v0) tl := rfl
    rw [hstep, mapLookup_cons]
    rcases h0 : mapLookup args k0 with _ | v1
    · rw [if_neg (by simp [h0]), ih, mapLookup_mapInsert]
      by_cases hk : k0 = k
      · subst hk
        simp [h0, some_or, none_or]
      · simp [hk]
    · rw [if_pos (by simp [h0]), ih]
      by_cases hk : k0 = k
      · subst hk
        simp [h0, some_or]
      · simp [hk]

theorem mapLookup_append (l1 l2 : Args) (k : String) :
    mapLookup (l1 ++ l2) k = (mapLookup l1 k).or (mapLookup l2 k) := by
  induction l1 with
  | nil => exact (none_or _).symm
  | cons hd tl ih =>
    obtain ⟨k0, v0⟩ := hd
    rw [List.cons_append, mapLookup_cons, mapLookup_cons]
    by_cases hk : k0 = k
    · rw [if_pos hk, if_pos hk, some_or]
    · rw [if_neg hk, if_neg hk, ih]

theorem mapLookupLast_cons (k0 v0 : String) (tl : Args) (k : String) :
    mapLookupLast ((k0, v0) :: tl) k =
      (mapLookupLast tl k).or (if k0 = k then some v0 else none) := by
  unfold mapLookupLast
  rw [List.reverse_cons, mapLookup_append, mapLookup_cons]
  cases hl : mapLookup tl.reverse k with
  | none =>
    rw [none_or, none_or]
    by_cases hk : k0 = k
    · simp [hk]
    · simp [hk, mapLookup]
  | some v1 => simp [some_or]

theorem mapInsertAll_lookup (dst src : Args) (k : String) :
    mapLookup (mapInsertAll dst src) k =
      (mapLookupLast src k).or (mapLookup dst k) := by
  induction src generalizing dst with
  | nil =>
    show mapLookup dst k = (mapLookupLast [] k).or (mapLookup dst k)
    exact (none_or _).symm
  | cons hd tl ih =>
    obtain ⟨k0, v0⟩ := hd
    show mapLookup (mapInsertAll (mapInsert dst k0 v0) tl) k = _
    rw [ih, mapLookup_mapInsert, mapLookupLast_cons]
    cases hl : mapLookupLast tl k with
    | none =>
      rw [none_or, none_or]
      by_cases hk : k0 = k
      · simp [hk, some_or]
      · simp [hk, none_or]
    | some v1 => simp [some_or]

theorem installRootDefaults_lookup (inner root : Args) (k : String) :
    mapLookup (installRootDefaults inner root) k =
      (mapLookupLast root k).or (mapLookup inner k) := by
  unfold installRootDefaults
  by_cases h : root.length > 0
  · rw [if_pos h]
    exact mapInsertAll_lookup inner root k
  · have hnil : root = [] := by
      cases root with
      | nil => rfl
      | cons a b => exact absurd (Nat.succ_pos _) h
    subst hnil
    rw [if_neg h]
    exact (none_or _).symm

/-- C5 counterexample: the claim says the root application's defaults
override the inner application's defaults only for keys the inner
application did not set.  With inner default `k = inner` and root default
`k = root`, the code (plain map assignment, part_007 lines 309-311) makes
the root value win even though the inner application did set `k`. -/
theorem c5_root_defaults_counterexample :
    mapLookup (installRootDefaults [("k", "inner")] [("k", "root")]) "k" = some "root"
      ∧ ("root" : String) ≠ "inner" := by
  constructor
  · rfl
  · decide

/-- C5 (amended): user-supplied arguments win over the application's
declared defaults (a default is applied only to keys the user did not
set); in nested mode the root application's defaults override the inner
application's defaults for every key the root mentions (not only the keys
the inner application left unset), and user arguments still win over the
merged defaults. -/
theorem c5_argument_defaults_merge (args defaults inner root : Args) (k : String) :
    mapLookup (applyArgumentDefaults args defaults) k =
        (mapLookup args k).or (mapLookup defaults k)
      ∧ mapLookup (installRootDefaults inner root) k =
        (mapLookupLast root k).or (mapLookup inner k) :=
  ⟨applyArgumentDefaults_lookup args defaults k,
   installRootDefaults_lookup inner root k⟩

/-! ## C8: cache-mode composition (part_000 lines 199-236 and 322-344) -/

/-- Remote cache values as they appear in the command layer: the two base
providers, the null cache, and the two restricting wrappers from
part_000 lines 322-344. -/
inductive RemoteCache where
  | gsutil (bucket : String)
  | minio (bucket : String)
  | noRemote
  | pullOnly (c : RemoteCache)
  | pushOnly (c : RemoteCache)
deriving DecidableEq

/-- Cache levels accepted by `getBuildOpts` (part_000 lines 205-215). -/
inductive CacheLevel where
  | cacheNone
  | cacheLocal
  | cacheRemotePull
  | cacheRemotePush
  | cacheRemote
deriving DecidableEq

/-- Embeds the `switch cacheLevel` of `getBuildOpts` (part_000 lines
205-215): `none` and `local` replace the remote cache by the null cache,
`remote-pull` and `remote-push` wrap it, `remote` keeps it. -/
def getBuildOptsRemoteCache (cacheLevel : CacheLevel) (remoteCache : RemoteCache) :
    RemoteCache :=
  match cacheLevel with
  | .cacheNone => .noRemote
  | .cacheLocal => .noRemote
  | .cacheRemotePull => .pullOnly remoteCache
  | .cacheRemotePush => .pushOnly remoteCache
  | .cacheRemote => remoteCache

/-- The base cache that actually performs a `Download` call, following the
method dispatch of the wrappers: `pullOnlyRemoteCache.Download` delegates
to the wrapped cache (part_000 line 338), `pushOnlyRemoteCache.Download`
returns nil without consulting anything (part_000 line 326).
Modelled from the spec for `NoRemoteCache`: the null object performs no
download. `none` means the call is a no-op that returns nil. -/
def downloadTarget : RemoteCache → Option RemoteCache
  | .gsutil b => some (.gsutil b)
  | .minio b => some (.minio b)
  | .noRemote => none
  | .pullOnly c => downloadTarget c
  | .pushOnly _ => none

/-- The base cache that actually performs an `Upload` call:
`pushOnlyRemoteCache.Upload` delegates (part_000 line 330),
`pullOnlyRemoteCache.Upload` returns nil (part_000 line 342).
Modelled from the spec for `NoRemoteCache`: the null object performs no
upload. -/
def uploadTarget : RemoteCache → Option RemoteCache
  | .gsutil b => some (.gsutil b)
  | .minio b => some (.minio b)
  | .noRemote => none
  | .pullOnly _ => none
  | .pushOnly c => uploadTarget c

/-- C8: cache-mode composition maps to the remote-cache wrappers as
specified.  Under `remote-pull`, `Upload` is a nil-returning no-op while
`Download` delegates to the wrapped cache; under `remote-push`, `Download`
is the no-op while `Upload` delegates; under `none` and `local` the null
remote cache is installed and neither direction consults any cache; under
`remote` both directions delegate to the configured cache unchanged. -/
theorem c8_cache_mode_composition (rc : RemoteCache) :
    uploadTarget (getBuildOptsRemoteCache .cacheRemotePull rc) = none
      ∧ downloadTarget (getBuildOptsRemoteCache .cacheRemotePull rc) = downloadTarget rc
      ∧ downloadTarget (getBuildOptsRemoteCache .cacheRemotePush rc) = none
      ∧ uploadTarget (getBuildOptsRemoteCache .cacheRemotePush rc) = uploadTarget rc
      ∧ getBuildOptsRemoteCache .cacheNone rc = .noRemote
      ∧ getBuildOptsRemoteCache .cacheLocal rc = .noRemote
      ∧ downloadTarget (getBuildOptsRemoteCache .cacheNone rc) = none
      ∧ uploadTarget (getBuildOptsRemoteCache .cacheNone rc) = none
      ∧ downloadTarget (getBuildOptsRemoteCache .cacheLocal rc) = none
      ∧ uploadTarget (getBuildOptsRemoteCache .cacheLocal rc) = none
      ∧ getBuildOptsRemoteCache .cacheRemote rc = rc := by
  refine ⟨rfl, rfl, rfl, rfl, rfl, rfl, rfl, rfl, rfl, rfl, rfl⟩

/-! ## Go string primitives used by the loader -/

/-- Check whether `pre` is a prefix of `l` (character-exact). -/
def isPrefOf : List Char → List Char → Bool
  | [], _ => true
  | _ :: _, [] => false
  | a :: as, b :: bs => a = b && isPrefOf as bs

/-- Substring search underlying Go `strings.Contains`: the empty pattern
occurs in every string. -/
def containsSub (pat : List Char) : List Char → Bool
  | [] => pat.isEmpty
  | c :: rest => isPrefOf pat (c :: rest) || containsSub pat rest

/-- Go `strings.Contains(s, sub)`. -/
def goContains (s sub : String) : Bool :=
  containsSub sub.data s.data

/-- Go `strings.Split(s, sep)` for a one-character separator, on the
character list. `Split` of the empty string is `[""]`. -/
def splitOnChar (sep : Char) : List Char → List (List Char)
  | [] => [[]]
  | c :: rest =>
    if c = sep then [] :: splitOnChar sep rest
    else
      match splitOnChar sep rest with
      | [] => [[c]]
      | h :: t => (c :: h) :: t

/-- Go `strings.Split(s, sep)` for a one-character separator. -/
def goSplit (s : String) (sep : Char) : List String :=
  (splitOnChar sep s.data).map String.mk

theorem splitOnChar_ne_nil (sep : Char) (l : List Char) : splitOnChar sep l ≠ [] := by
  cases l with
  | nil => simp [splitOnChar]
  | cons c rest =>
    by_cases hc : c = sep
    · simp [splitOnChar, hc]
    · simp only [splitOnChar, hc, if_false]
      cases splitOnChar sep rest <;> simp

theorem splitOnChar_append_sep (sep : Char) (l : List Char) :
    splitOnChar sep (l ++ [sep]) = splitOnChar sep l ++ [[]] := by
  induction l with
  | nil => simp [splitOnChar]
  | cons c rest ih =>
    by_cases hc : c = sep
    · simp [splitOnChar, hc, ih]
    · simp only [List.cons_append, splitOnChar, hc, if_false, List.append_eq]
      rw [ih]
      cases hs : splitOnChar sep rest with
      | nil => exact absurd hs (splitOnChar_ne_nil sep rest)
      | cons h t => simp

/-! ## C10: the ignore list of the application (part_007 lines 281-302,
130-137 and 477-503) -/

/-- Embeds `Application.ShouldIgnoreSource` (part_007 lines 130-137): a
path is ignored when any ignore pattern occurs in it as a substring. -/
def shouldIgnoreSource (ignores : List String) (path : String) : Bool :=
  ignores.any (fun ptn => goContains path ptn)

/-- Embeds `Application.ShouldIgnoreComponent` (part_007 lines 124-127),
which just forwards to `ShouldIgnoreSource`. -/
def shouldIgnoreComponent (ignores : List String) (path : String) : Bool :=
  shouldIgnoreSource ignores path

/-- Embeds the ignore-list construction of `loadApplication` (part_007
line 288): the raw `.gorpaignore` bytes are split on newlines with no
filtering of empty lines. -/
def gorpaignorePatterns (fc : String) : List String :=
  goSplit fc '\n'

/-- Embeds the component-path selection of `discoverComponents` (part_007
lines 489-492): every globbed `BUILD.yaml` path for which
`ShouldIgnoreComponent` holds is skipped; the surviving paths are the ones
components are loaded from. -/
def discoverComponentPaths (ignores : List String) (globbed : List String) : List String :=
  globbed.filter (fun pth => !shouldIgnoreComponent ignores pth)

theorem goContains_empty_pattern (s : String) : goContains s "" = true := by
  show containsSub ("" : String).data s.data = true
  cases s.data <;> rfl

/-- C10: the ignore list uses raw substring matching with no empty-pattern
guard.  If the `.gorpaignore` contents contain an empty line — in
particular whenever the file ends in a newline — splitting on newlines
yields an empty-string pattern, `ShouldIgnoreSource` then holds for every
path, and component discovery skips every globbed `BUILD.yaml`, finding no
components. -/
theorem c10_empty_ignore_pattern (fc : String) (h : "" ∈ gorpaignorePatterns fc) :
    (∀ path, shouldIgnoreSource (gorpaignorePatterns fc) path = true)
      ∧ (∀ globbed, discoverComponentPaths (gorpaignorePatterns fc) globbed = [])
      ∧ (∀ s : String, "" ∈ gorpaignorePatterns (s ++ "\n")) := by
  refine ⟨?_, ?_, ?_⟩
  · intro path
    rw [shouldIgnoreSource, List.any_eq_true]
    exact ⟨"", h, goContains_empty_pattern path⟩
  · intro globbed
    rw [discoverComponentPaths, List.filter_eq_nil_iff]
    intro a _
    have hig : shouldIgnoreComponent (gorpaignorePatterns fc) a = true := by
      rw [shouldIgnoreComponent, shouldIgnoreSource, List.any_eq_true]
      exact ⟨"", h, goContains_empty_pattern a⟩
    simp [hig]
  · intro s
    have hmk : String.mk [] = "" := rfl
    have hdata : (s ++ "\n").data = s.data ++ ['\n'] := by
      rw [String.data_append]
    show "" ∈ (splitOnChar '\n' (s ++ "\n").data).map String.mk
    rw [hdata, splitOnChar_append_sep, List.map_append]
    refine List.mem_append_right _ ?_
    simp [hmk]

/-- C10 witness: a concrete `.gorpaignore` content with a trailing newline
ignores a concrete path and leaves a concrete glob result without any
component path. -/
theorem c10_empty_ignore_pattern_witness :
    shouldIgnoreSource (gorpaignorePatterns "foo\n") "comp/BUILD.yaml" = true
      ∧ discoverComponentPaths (gorpaignorePatterns "foo\n")
          ["comp/BUILD.yaml", "other/BUILD.yaml"] = [] := by
  have h : "" ∈ gorpaignorePatterns "foo\n" := by decide
  exact ⟨(c10_empty_ignore_pattern "foo\n" h).1 "comp/BUILD.yaml",
         (c10_empty_ignore_pattern "foo\n" h).2.1 ["comp/BUILD.yaml", "other/BUILD.yaml"]⟩

/-! ## C2: build-argument substitution in `loadComponent` (part_007 lines
573-610) -/

/-- The opening brace character, written by code point to keep string and
character literals free of braces. -/
def lbrace : Char := Char.ofNat 123

/-- The closing brace character. -/
def rbrace : Char := Char.ofNat 125

/-- Scan up to the next closing brace: returns the name characters before
it and the remaining characters after it, or `none` if no closing brace
follows. -/
def takeName : List Char → Option (List Char × List Char)
  | [] => none
  | c :: rest =>
    if c = rbrace then some ([], rest)
    else
      match takeName rest with
      | some (n, r) => some (c :: n, r)
      | none => none

theorem takeName_decomp :
    ∀ (l n r : List Char), takeName l = some (n, r) → l = n ++ rbrace :: r := by
  intro l
  induction l with
  | nil =>
    intro n r h
    exact absurd h (by simp [takeName])
  | cons c rest ih =>
    intro n r h
    by_cases hc : c = rbrace
    · subst hc
      simp only [takeName, if_pos rfl] at h
      have hinj := Option.some.inj h
      have h1 : ([] : List Char) = n := congrArg Prod.fst hinj
      have h2 : rest = r := congrArg Prod.snd hinj
      subst h2
      rw [← h1]
      rfl
    · simp only [takeName, if_neg hc] at h
      cases htn : takeName rest with
      | none =>
        rw [htn] at h
        exact absurd h (by simp)
      | some pr =>
        obtain ⟨nm, rr⟩ := pr
        rw [htn] at h
        have hinj := Option.some.inj h
        have h1 : c :: nm = n := congrArg Prod.fst hinj
        have h2 : rr = r := congrArg Prod.snd hinj
        subst h2
        subst h1
        rw [List.cons_append]
        exact congrArg (c :: ·) (ih nm rr htn)

/-- Modelled from the spec: `replaceBuildArguments` is not under `src/`.
The spec prescribes literal textual substitution of every occurrence of
the pattern `${name}` in the raw YAML bytes with the string value from the
argument map, leaving unknown names verbatim.  The scan is single-pass
and left-to-right; the fuel argument (instantiated with the input length,
which always suffices because every step consumes at least one character)
only makes the recursion structural. -/
def replaceCharsGo (m : Args) : Nat → List Char → List Char
  | 0, l => l
  | Nat.succ fuel, l =>
    match l with
    | [] => []
    | c :: rest =>
      if c = '$' then
        match rest with
        | [] => [c]
        | c2 :: rest2 =>
          if c2 = lbrace then
            match takeName rest2 with
            | some (n, r) =>
              (match mapLookup m (String.mk n) with
               | some v => v.data
               | none => c :: c2 :: (n ++ [rbrace])) ++ replaceCharsGo m fuel r
            | none => c :: replaceCharsGo m fuel rest
          else c :: replaceCharsGo m fuel rest
      else c :: replaceCharsGo m fuel rest

/-- Modelled from the spec: literal `${name}` substitution over a
character list. -/
def replaceChars (m : Args) (l : List Char) : List Char :=
  replaceCharsGo m l.length l

/-- Modelled from the spec: literal `${name}` substitution over the raw
manifest bytes. -/
def replaceBuildArguments (fc : String) (args : Args) : String :=
  String.mk (replaceChars args fc.data)

/-- Embeds part_007 lines 581-594: the per-component argument map is the
build arguments overridden by the component constants, and the textual
substitution is performed only when the build-argument map `args` itself
is non-empty. -/
def loadComponentSubstitute (args constants : Args) (fc : String) : String :=
  let compargs := mapInsertAll args constants
  if args.length > 0 then replaceBuildArguments fc compargs else fc

/-- C2 counterexample: the claim says the `${name}` substitution also
happens when the caller supplied no build arguments but the component
declares constants.  The guard `if len(args) > 0` (part_007 line 592)
checks the build-argument map, not the merged per-component map, so with
empty `args` and a constant `name = v` the raw YAML is parsed with
`${name}` left in place. -/
theorem c2_substitution_counterexample :
    loadComponentSubstitute [] [("name", "v")] "x: ${name}" = "x: ${name}"
      ∧ replaceBuildArguments "x: ${name}" (mapInsertAll [] [("name", "v")]) = "x: v"
      ∧ ("x: ${name}" : String) ≠ "x: v" := by
  refine ⟨rfl, by decide, by decide⟩

/-- C2 (amended): the literal `${name}` substitution over the raw YAML
bytes uses the per-component map (arguments overridden by constants, third
conjunct), but it is performed only when the build-argument map itself is
non-empty; when the caller supplied no build arguments, constants alone do
not trigger any substitution and the raw bytes are parsed unchanged. -/
theorem c2_substitution_guard (args constants : Args) (fc : String) :
    (args = [] → loadComponentSubstitute args constants fc = fc)
      ∧ (args ≠ [] →
          loadComponentSubstitute args constants fc =
            replaceBuildArguments fc (mapInsertAll args constants))
      ∧ (∀ k, mapLookup (mapInsertAll args constants) k =
          (mapLookupLast constants k).or (mapLookup args k)) := by
  refine ⟨?_, ?_, fun k => mapInsertAll_lookup args constants k⟩
  · intro h
    subst h
    rfl
  · intro h
    have hl : args.length > 0 := by
      cases args with
      | nil => exact absurd rfl h
      | cons a b => exact Nat.succ_pos _
    simp [loadComponentSubstitute, hl]

/-- C2 witness: the guard theorem applied at concrete inputs, one with no
build arguments (no substitution) and one with a build argument (the
substituted bytes are parsed). -/
theorem c2_substitution_guard_witness :
    loadComponentSubstitute [] [("name", "v")] "y: ${name}" = "y: ${name}"
      ∧ loadComponentSubstitute [("a", "1")] [("name", "v")] "x: ${name} ${a}" =
          replaceBuildArguments "x: ${name} ${a}" (mapInsertAll [("a", "1")] [("name", "v")]) :=
  ⟨(c2_substitution_guard [] [("name", "v")] "y: ${name}").1 rfl,
   (c2_substitution_guard [("a", "1")] [("name", "v")] "x: ${name} ${a}").2.1
     (List.cons_ne_nil _ _)⟩

/-! ## C9: SLSA materials (pkg/gorpa/provenance.go lines 149-167 and
212-235) -/

/-- Go `strings.TrimPrefix` on character lists. -/
def goTrimPfxChars (s pre : List Char) : List Char :=
  if isPrefOf pre s then s.drop pre.length else s

/-- Go `strings.TrimPrefix(s, pre)`. -/
def goTrimPfxStr (s pre : String) : String :=
  String.mk (goTrimPfxChars s.data pre.data)

/-- Git state of a component as read by `Component.Git()`. -/
structure GitInfo where
  commit : String
  origin : String
  dirty : Bool
deriving DecidableEq

/-- A provenance material: its URI and its sha-256 digest value (the
source stores it under the fixed digest key `sha256`). -/
structure ProvenanceMaterial where
  uri : String
  digest : String
deriving DecidableEq

/-- Embeds `Package.inTotoMaterials` (provenance.go lines 212-235): one
material per package source, whose URI is `file://` plus the source path
with the application origin and a leading slash trimmed, and whose digest
is the sha-256 of the file contents (passed in as an oracle from path to
digest, since file contents are outside the embedding). -/
def inTotoMaterials (sha : String → String) (appOrigin : String) (sources : List String) :
    List ProvenanceMaterial :=
  sources.map (fun src =>
    { uri := "file://" ++ goTrimPfxStr (goTrimPfxStr src appOrigin) "/"
      digest := sha src })

/-- Embeds the material selection of `Package.ProduceSLSAEnvelope`
(provenance.go lines 149-167): missing git information (empty commit or
empty origin) fails with an error before any material is produced; a
dirty git state yields the per-source materials; a clean git state yields
exactly one `git+<origin>` material whose digest is the commit id. -/
def produceSLSAMaterials (sha : String → String) (git : GitInfo) (appOrigin : String)
    (sources : List String) : Except String (List ProvenanceMaterial) :=
  if git.commit = "" ∨ git.origin = "" then
    .error "Git provenance is unclear - do not have any Git info"
  else if git.dirty then
    .ok (inTotoMaterials sha appOrigin sources)
  else
    .ok [{ uri := "git+" ++ git.origin, digest := git.commit }]

/-- C9 counterexample: the claim says that when the component's git state
is missing the envelope's materials are the package's sources; the code
instead refuses to produce an envelope at all (provenance.go lines
150-153). -/
theorem c9_missing_git_counterexample :
    produceSLSAMaterials (fun _ => "d") { commit := "", origin := "", dirty := true }
        "/app" ["/app/a"] = .error "Git provenance is unclear - do not have any Git info"
      ∧ ∀ ms, produceSLSAMaterials (fun _ => "d") { commit := "", origin := "", dirty := true }
          "/app" ["/app/a"] ≠ .ok ms := by
  refine ⟨rfl, fun ms h => ?_⟩
  exact Except.noConfusion h

/-- C9 (amended): with SLSA provenance enabled, producing the envelope
fails when the component's git information is missing (empty commit or
origin); with git information present, a dirty git state yields exactly
the package's sources as materials, each with its sha-256 digest and its
path relative to the application origin under a `file://` URI, and a
clean git state yields exactly one material `git+<origin>` whose digest
is the commit id. -/
theorem c9_slsa_materials (sha : String → String) (git : GitInfo) (appOrigin : String)
    (sources : List String) :
    ((git.commit = "" ∨ git.origin = "") →
        produceSLSAMaterials sha git appOrigin sources =
          .error "Git provenance is unclear - do not have any Git info")
      ∧ (git.commit ≠ "" → git.origin ≠ "" → git.dirty = true →
          produceSLSAMaterials sha git appOrigin sources =
            .ok (sources.map (fun src =>
              { uri := "file://" ++ goTrimPfxStr (goTrimPfxStr src appOrigin) "/"
                digest := sha src })))
      ∧ (git.commit ≠ "" → git.origin ≠ "" → git.dirty = false →
          produceSLSAMaterials sha git appOrigin sources =
            .ok [{ uri := "git+" ++ git.origin, digest := git.commit }]) := by
  refine ⟨?_, ?_, ?_⟩
  · intro h
    rw [produceSLSAMaterials, if_pos h]
  · intro h1 h2 hd
    rw [produceSLSAMaterials, if_neg (by exact fun hor => hor.elim h1 h2), hd, if_pos rfl]
    rfl
  · intro h1 h2 hd
    rw [produceSLSAMaterials, if_neg (by exact fun hor => hor.elim h1 h2), hd]
    rfl

/-- C9 witness: the materials theorem applied at concrete clean and dirty
git states. -/
theorem c9_slsa_materials_witness :
    produceSLSAMaterials (fun _ => "d") { commit := "c0", origin := "git.example/r", dirty := false }
        "/app" ["/app/a"] = .ok [{ uri := "git+git.example/r", digest := "c0" }]
      ∧ produceSLSAMaterials (fun _ => "d")
          { commit := "c0", origin := "git.example/r", dirty := true } "/app" ["/app/a"] =
          .ok [{ uri := "file://a", digest := "d" }] := by
  constructor
  · exact (c9_slsa_materials (fun _ => "d")
      { commit := "c0", origin := "git.example/r", dirty := false } "/app" ["/app/a"]).2.2
      (by decide) (by decide) rfl
  · have h := (c9_slsa_materials (fun _ => "d")
      { commit := "c0", origin := "git.example/r", dirty := true } "/app" ["/app/a"]).2.1
      (by decide) (by decide) rfl
    rw [h]
    rfl

/-! ## C3: variant overlays onto package config and environment
(`mergeConfig`, part_007 lines 754-808; `mergeEnv`, lines 810-829) -/

/-- Yarn command overrides (fields as used in part_003 lines 414-423). -/
structure YarnCommands where
  install : List String
  build : List String
  test : List String
deriving DecidableEq

/-- Yarn package configuration (fields as used in part_003 and the engine
tests). -/
structure YarnPkgConfig where
  yarnLock : String
  tsConfig : String
  packaging : String
  dontTest : Bool
  commands : YarnCommands
deriving DecidableEq

/-- Go package configuration (fields as used in part_003 lines 404-411). -/
structure GoPkgConfig where
  packaging : String
  generate : Bool
  dontTest : Bool
  dontCheckGoFmt : Bool
  dontLint : Bool
  buildFlags : List String
  lintCommand : List String
deriving DecidableEq

/-- Docker package configuration (fields as used in part_003 lines
389-393). -/
structure DockerPkgConfig where
  dockerfile : String
  image : List String
  buildArgs : Args
  squash : Bool
deriving DecidableEq

/-- Generic package configuration (fields as used in part_003 lines
395-398). -/
structure GenericPkgConfig where
  commands : List (List String)
  test : List (List String)
  dontTest : Bool
deriving DecidableEq

/-- The tagged union held in a package's config slot. -/
inductive PackageConfig where
  | yarn (c : YarnPkgConfig)
  | go (c : GoPkgConfig)
  | docker (c : DockerPkgConfig)
  | generic (c : GenericPkgConfig)
deriving DecidableEq

/-- Default `mergo.Merge` semantics on a string field: the destination
keeps its value unless it is the zero value. -/
def mergoStr (dst src : String) : String :=
  if dst = "" then src else dst

/-- Default `mergo.Merge` semantics on a boolean field. -/
def mergoBool (dst src : Bool) : Bool :=
  if dst = false then src else dst

/-- Default `mergo.Merge` semantics on a slice field: an empty destination
slice takes the source slice. -/
def mergoList {α : Type} (dst src : List α) : List α :=
  if dst.isEmpty then src else dst

/-- Default `mergo.Merge` semantics on a `map[string]string` field: only
keys absent from the destination are taken from the source. -/
def mergoArgsMap (dst src : Args) : Args :=
  applyArgumentDefaults dst src

/-- Field-wise merge of the nested Yarn command struct (`mergo` recurses
into nested structures). -/
def mergoYarnCommands (dst src : YarnCommands) : YarnCommands :=
  { install := mergoList dst.install src.install
    build := mergoList dst.build src.build
    test := mergoList dst.test src.test }

/-- Embeds `mergeConfig` (part_007 lines 754-808): the package config is
the merge destination and the variant config the source, merged with the
external `mergo.Merge(&dst, in)` call in its default mode, modelled
field-wise (destination wins unless zero); mismatching config types fail. -/
def mergeConfig (dst src : PackageConfig) : Except String PackageConfig :=
  match dst, src with
  | .yarn d, .yarn s =>
    .ok (.yarn
      { yarnLock := mergoStr d.yarnLock s.yarnLock
        tsConfig := mergoStr d.tsConfig s.tsConfig
        packaging := mergoStr d.packaging s.packaging
        dontTest := mergoBool d.dontTest s.dontTest
        commands := mergoYarnCommands d.commands s.commands })
  | .go d, .go s =>
    .ok (.go
      { packaging := mergoStr d.packaging s.packaging
        generate := mergoBool d.generate s.generate
        dontTest := mergoBool d.dontTest s.dontTest
        dontCheckGoFmt := mergoBool d.dontCheckGoFmt s.dontCheckGoFmt
        dontLint := mergoBool d.dontLint s.dontLint
        buildFlags := mergoList d.buildFlags s.buildFlags
        lintCommand := mergoList d.lintCommand s.lintCommand })
  | .docker d, .docker s =>
    .ok (.docker
      { dockerfile := mergoStr d.dockerfile s.dockerfile
        image := mergoList d.image s.image
        buildArgs := mergoArgsMap d.buildArgs s.buildArgs
        squash := mergoBool d.squash s.squash })
  | .generic d, .generic s =>
    .ok (.generic
      { commands := mergoList d.commands s.commands
        test := mergoList d.test s.test
        dontTest := mergoBool d.dontTest s.dontTest })
  | _, _ => .error "cannot merge config of mismatching types"

/-- Parse one `K=V` environment entry as `mergeEnv` does (part_007 lines
813-819): split on `=`, fail below two segments, rejoin the tail with `=`
as the value. -/
def parseEnvEntry (kv : String) : Option (String × String) :=
  match goSplit kv '=' with
  | k :: r :: rs => some (k, String.intercalate "=" (r :: rs))
  | _ => none

/-- Embeds the map-building loop of `mergeEnv` over one entry list. -/
def mergeEnvInto (env : Args) (kvs : List String) : Except String Args :=
  match kvs with
  | [] => .ok env
  | kv :: rest =>
    match parseEnvEntry kv with
    | some (k, v) => mergeEnvInto (mapInsert env k v) rest
    | none => .error ("environment variable must have format ENV=VAR: " ++ kv)

/-- Embeds `mergeEnv` (part_007 lines 810-829): the package environment
and then the variant environment are folded into one map in that order
(later assignment wins per key) and rendered back to `K=V` strings.
Go map iteration order is arbitrary, so the theorems below state only
key-level facts about the underlying map. -/
def mergeEnv (pkgEnv src : List String) : Except String (List String) := do
  let e1 ← mergeEnvInto [] pkgEnv
  let e2 ← mergeEnvInto e1 src
  return e2.map (fun kv => kv.1 ++ "=" ++ kv.2)

theorem mergeEnvInto_ok (env : Args) (kvs : List String)
    (h : ∀ kv ∈ kvs, (parseEnvEntry kv).isSome) :
    mergeEnvInto env kvs = .ok (mapInsertAll env (kvs.filterMap parseEnvEntry)) := by
  induction kvs generalizing env with
  | nil => rfl
  | cons kv rest ih =>
    have hkv := h kv (List.mem_cons_self kv rest)
    cases hp : parseEnvEntry kv with
    | none =>
      rw [hp] at hkv
      exact absurd hkv (by simp)
    | some pr =>
      obtain ⟨k, v⟩ := pr
      show mergeEnvInto env (kv :: rest) = _
      rw [show mergeEnvInto env (kv :: rest) = mergeEnvInto (mapInsert env k v) rest from by
        simp only [mergeEnvInto, hp]]
      rw [ih (mapInsert env k v) (fun x hx => h x (List.mem_cons_of_mem kv hx))]
      congr 1
      rw [List.filterMap_cons, hp]
      rfl

/-- C3 counterexample: the claim says the variant's (later) values win in
the config deep merge.  With a package Dockerfile `a` and a variant
Dockerfile `b`, `mergo.Merge` in its default mode keeps the package's
non-zero value `a`. -/
theorem c3_variant_config_counterexample :
    mergeConfig
        (.docker { dockerfile := "a", image := [], buildArgs := [], squash := false })
        (.docker { dockerfile := "b", image := ["img"], buildArgs := [], squash := false })
      = .ok (.docker { dockerfile := "a", image := ["img"], buildArgs := [], squash := false })
      ∧ ("a" : String) ≠ "b" := by
  exact ⟨rfl, by decide⟩

/-- C3 (amended): applying the variant overlay deep-merges the variant's
type-specific config onto the package's config such that the package's
own non-zero values win and the variant only fills fields the package
left at their zero value (shown on representative fields of all four
config types, including the nested Yarn command struct), while the
variant's environment is merged key-preservingly with the variant's value
replacing the package's value for each key. -/
theorem c3_variant_overlay (dy sy : YarnPkgConfig) (dg sg : GoPkgConfig)
    (dd sd : DockerPkgConfig) (dn sn : GenericPkgConfig)
    (pkgEnv src : List String) (k : String)
    (henv : ∀ kv ∈ pkgEnv ++ src, (parseEnvEntry kv).isSome) :
    (∃ m, mergeConfig (.docker dd) (.docker sd) = .ok (.docker m)
      ∧ (dd.dockerfile ≠ "" → m.dockerfile = dd.dockerfile)
      ∧ (dd.dockerfile = "" → m.dockerfile = sd.dockerfile)
      ∧ (dd.image ≠ [] → m.image = dd.image)
      ∧ (dd.image = [] → m.image = sd.image)
      ∧ ((mapLookup dd.buildArgs k).isSome → mapLookup m.buildArgs k = mapLookup dd.buildArgs k))
    ∧ (∃ m, mergeConfig (.yarn dy) (.yarn sy) = .ok (.yarn m)
      ∧ (dy.tsConfig ≠ "" → m.tsConfig = dy.tsConfig)
      ∧ (dy.tsConfig = "" → m.tsConfig = sy.tsConfig)
      ∧ (dy.commands.build ≠ [] → m.commands.build = dy.commands.build)
      ∧ (dy.commands.build = [] → m.commands.build = sy.commands.build))
    ∧ (∃ m, mergeConfig (.go dg) (.go sg) = .ok (.go m)
      ∧ (dg.buildFlags ≠ [] → m.buildFlags = dg.buildFlags)
      ∧ (dg.buildFlags = [] → m.buildFlags = sg.buildFlags))
    ∧ (∃ m, mergeConfig (.generic dn) (.generic sn) = .ok (.generic m)
      ∧ (dn.commands ≠ [] → m.commands = dn.commands)
      ∧ (dn.commands = [] → m.commands = sn.commands))
    ∧ (∃ e, mergeEnv pkgEnv src = .ok (e.map (fun kv => kv.1 ++ "=" ++ kv.2))
      ∧ mapLookup e k =
          (mapLookupLast (src.filterMap parseEnvEntry) k).or
            (mapLookupLast (pkgEnv.filterMap parseEnvEntry) k)) := by
  have hstr : ∀ d s : String, (d ≠ "" → mergoStr d s = d) ∧ (d = "" → mergoStr d s = s) := by
    intro d s
    constructor
    · intro h; rw [mergoStr, if_neg h]
    · intro h; rw [mergoStr, if_pos h]
  have hlist : ∀ {α : Type} (d s : List α), (d ≠ [] → mergoList d s = d) ∧ (d = [] → mergoList d s = s) := by
    intro α d s
    constructor
    · intro h
      rw [mergoList, if_neg (by simpa [List.isEmpty_iff] using h)]
    · intro h; rw [mergoList, if_pos (by simp [h])]
  refine ⟨⟨_, rfl, ?_, ?_, ?_, ?_, ?_⟩, ⟨_, rfl, ?_, ?_, ?_, ?_⟩, ⟨_, rfl, ?_, ?_⟩,
    ⟨_, rfl, ?_, ?_⟩, ?_⟩
  · exact (hstr dd.dockerfile sd.dockerfile).1
  · exact (hstr dd.dockerfile sd.dockerfile).2
  · exact (hlist dd.image sd.image).1
  · exact (hlist dd.image sd.image).2
  · intro hs
    show mapLookup (mergoArgsMap dd.buildArgs sd.buildArgs) k = _
    rw [mergoArgsMap, applyArgumentDefaults_lookup]
    cases hx : mapLookup dd.buildArgs k with
    | none => rw [hx] at hs; exact absurd hs (by simp)
    | some v => rw [some_or]
  · exact (hstr dy.tsConfig sy.tsConfig).1
  · exact (hstr dy.tsConfig sy.tsConfig).2
  · exact (hlist dy.commands.build sy.commands.build).1
  · exact (hlist dy.commands.build sy.commands.build).2
  · exact (hlist dg.buildFlags sg.buildFlags).1
  · exact (hlist dg.buildFlags sg.buildFlags).2
  · exact (hlist dn.commands sn.commands).1
  · exact (hlist dn.commands sn.commands).2
  · have h1 : ∀ kv ∈ pkgEnv, (parseEnvEntry kv).isSome :=
      fun kv hkv => henv kv (List.mem_append_left _ hkv)
    have h2 : ∀ kv ∈ src, (parseEnvEntry kv).isSome :=
      fun kv hkv => henv kv (List.mem_append_right _ hkv)
    refine ⟨mapInsertAll (mapInsertAll [] (pkgEnv.filterMap parseEnvEntry))
      (src.filterMap parseEnvEntry), ?_, ?_⟩
    · rw [mergeEnv, mergeEnvInto_ok [] pkgEnv h1]
      show mergeEnvInto (mapInsertAll [] (pkgEnv.filterMap parseEnvEntry)) src >>= _ = _
      rw [mergeEnvInto_ok _ src h2]
      rfl
    · rw [mapInsertAll_lookup, mapInsertAll_lookup]
      rw [show mapLookup ([] : Args) k = none from rfl]
      cases mapLookupLast (pkgEnv.filterMap parseEnvEntry) k <;> rfl

/-- C3 witness: the overlay theorem applied at concrete configs and a
concrete well-formed environment pair, where the variant value replaces
the package value for the shared key. -/
theorem c3_variant_overlay_witness :
    mergeConfig
        (.docker { dockerfile := "df", image := [], buildArgs := [], squash := false })
        (.docker { dockerfile := "vf", image := ["i"], buildArgs := [], squash := true })
      = .ok (.docker { dockerfile := "df", image := ["i"], buildArgs := [], squash := true })
      ∧ (∃ e, mergeEnv ["A=1", "B=2"] ["A=3"] = .ok (e.map (fun kv => kv.1 ++ "=" ++ kv.2))
          ∧ mapLookup e "A" = some "3") := by
  have h := c3_variant_overlay
    { yarnLock := "", tsConfig := "", packaging := "", dontTest := false,
      commands := { install := [], build := [], test := [] } }
    { yarnLock := "", tsConfig := "", packaging := "", dontTest := false,
      commands := { install := [], build := [], test := [] } }
    { packaging := "", generate := false, dontTest := false, dontCheckGoFmt := false,
      dontLint := false, buildFlags := [], lintCommand := [] }
    { packaging := "", generate := false, dontTest := false, dontCheckGoFmt := false,
      dontLint := false, buildFlags := [], lintCommand := [] }
    { dockerfile := "df", image := [], buildArgs := [], squash := false }
    { dockerfile := "vf", image := ["i"], buildArgs := [], squash := true }
    { commands := [], test := [], dontTest := false }
    { commands := [], test := [], dontTest := false }
    ["A=1", "B=2"] ["A=3"] "A" (by decide)
  obtain ⟨_, _, _, _, ⟨e, he, hk⟩⟩ := h
  refine ⟨rfl, e, he, ?_⟩
  rw [hk]
  decide

/-! ## C4: variant exclusion of components and dependency filtering
(part_007 lines 504-556) -/

/-- Modelled from the spec: `PackageVariant.ExcludeComponent` is not under
`src/`; the spec says a variant may "exclude named components entirely",
modelled as membership of the component name in the variant's exclusion
list. -/
def excludeComponent (excludes : List String) (name : String) : Bool :=
  excludes.contains name

/-- A dependency reference of the form `C:name` onto an excluded
component: `strings.Split(dep, ":")` yields exactly two segments and the
first names an excluded component (part_007 lines 544-549). -/
def isExcludedDep (excludes : List String) (dep : String) : Bool :=
  match goSplit dep ':' with
  | [c, _] => excludeComponent excludes c
  | _ => false

/-- Embeds the dependency-removal loop of `filterExcludedComponents`
(part_007 lines 543-553) at the Go slice level: `range` iterates index
`i` over the original slice header (`arr` of fixed length), while the
body reads and writes through the current slice of length `len`, swapping
the current last element into position `i` and truncating.  An access
outside the current length is a Go runtime panic, modelled as `none`.
The first `Nat` argument counts the remaining `range` iterations
(`arr.length - i`), making the recursion structural. -/
def filterDepsLoopGo (excludes : List String) : Nat → Nat → List String → Nat → Option (List String)
  | 0, _, arr, len => some (arr.take len)
  | rem + 1, i, arr, len =>
    if isExcludedDep excludes (arr.getD i "") then
      if i < len then
        filterDepsLoopGo excludes rem (i + 1) (arr.set i (arr.getD (len - 1) "")) (len - 1)
      else
        none
    else
      filterDepsLoopGo excludes rem (i + 1) arr len

/-- The dependency filter as applied to one package's dependency slice:
the `range` loop performs exactly `len(p.Dependencies)` iterations, which
is the fuel given to the loop body. -/
def filterPackageDeps (excludes : List String) (deps : List String) : Option (List String) :=
  filterDepsLoopGo excludes deps.length 0 deps deps.length

/-- A package as seen by the exclusion filter. -/
structure SrcPackage where
  name : String
  dependencies : List String
deriving DecidableEq

/-- A component as seen by the exclusion filter. -/
structure SrcComponent where
  name : String
  packages : List SrcPackage
deriving DecidableEq

/-- The per-package half of `filterExcludedComponents` applied to every
package of a component (the `for _, p := range c.Packages` loop,
part_007 lines 542-554). -/
def filterComponentPackages (excludes : List String) :
    List SrcPackage → Option (List SrcPackage)
  | [] => some []
  | p :: rest => do
    let deps ← filterPackageDeps excludes p.dependencies
    let others ← filterComponentPackages excludes rest
    pure ({ p with dependencies := deps } :: others)

/-- Embeds `filterExcludedComponents` (part_007 lines 533-556): `true`
means the component itself is excluded by the variant; otherwise its
packages' dependency lists are filtered; `none` models a panic in the
removal loop. -/
def filterExcludedComponents (variant : Option (List String)) (c : SrcComponent) :
    Option (Bool × SrcComponent) :=
  match variant with
  | none => some (false, c)
  | some excludes =>
    if excludeComponent excludes c.name then some (true, c)
    else do
      let pkgs ← filterComponentPackages excludes c.packages
      pure (false, { c with packages := pkgs })

/-- Embeds the collector loop of `discoverComponents` (part_007 lines
509-520): components for which `filterExcludedComponents` reports `true`
are dropped, all others are kept. -/
def discoverComponents (variant : Option (List String)) :
    List SrcComponent → Option (List SrcComponent)
  | [] => some []
  | c :: rest => do
    let fc ← filterExcludedComponents variant c
    let others ← discoverComponents variant rest
    if fc.1 then pure others else pure (fc.2 :: others)

theorem get?_eq_some_getD {α : Type} :
    ∀ (l : List α) (n : Nat) (d : α), n < l.length → l.get? n = some (l.getD n d) := by
  intro l
  induction l with
  | nil => intro n d h; exact absurd h (by simp)
  | cons a t ih =>
    intro n d h
    cases n with
    | zero => rfl
    | succ m => exact ih m d (Nat.lt_of_succ_lt_succ h)

theorem get?_set_self {α : Type} :
    ∀ (l : List α) (i : Nat) (a : α), i < l.length → (l.set i a).get? i = some a := by
  intro l
  induction l with
  | nil => intro i a h; exact absurd h (by simp)
  | cons b t ih =>
    intro i a h
    cases i with
    | zero => rfl
    | succ m => exact ih m a (Nat.lt_of_succ_lt_succ h)

theorem get?_set_ne {α : Type} :
    ∀ (l : List α) (i j : Nat) (a : α), i ≠ j → (l.set i a).get? j = l.get? j := by
  intro l
  induction l with
  | nil => intro i j a _; simp
  | cons b t ih =>
    intro i j a hij
    cases i with
    | zero =>
      cases j with
      | zero => exact absurd rfl hij
      | succ m => rfl
    | succ n =>
      cases j with
      | zero => rfl
      | succ m => exact ih n m a (fun h => hij (congrArg Nat.succ h))

theorem get?_take_some {α : Type} :
    ∀ (l : List α) (n p : Nat) (a : α),
      (l.take n).get? p = some a → p < n ∧ l.get? p = some a := by
  intro l
  induction l with
  | nil =>
    intro n p a h
    rw [List.take_nil] at h
    exact absurd h (by simp)
  | cons b t ih =>
    intro n p a h
    cases n with
    | zero => exact absurd h (by simp)
    | succ m =>
      cases p with
      | zero =>
        refine ⟨Nat.succ_pos m, ?_⟩
        simpa using h
      | succ q =>
        have := ih m q a (by simpa using h)
        exact ⟨Nat.succ_lt_succ this.1, this.2⟩

theorem exists_get?_of_mem {α : Type} :
    ∀ (l : List α) (a : α), a ∈ l → ∃ n, l.get? n = some a := by
  intro l
  induction l with
  | nil => intro a h; exact absurd h (by simp)
  | cons b t ih =>
    intro a h
    rcases List.mem_cons.1 h with h1 | h2
    · exact ⟨0, by rw [h1]; rfl⟩
    · obtain ⟨n, hn⟩ := ih a h2
      exact ⟨n + 1, hn⟩

/-- Position of a successful lookup is inside the list. -/
theorem lt_length_of_get?_some {α : Type} :
    ∀ (l : List α) (n : Nat) (a : α), l.get? n = some a → n < l.length := by
  intro l
  induction l with
  | nil =>
    intro n a h
    cases n <;> exact absurd h (by simp)
  | cons b t ih =>
    intro n a h
    cases n with
    | zero => exact Nat.succ_pos _
    | succ m => exact Nat.succ_lt_succ (ih m a h)

/-- Optional lookup below the length is the total lookup. -/
theorem get?_eq_some_get {α : Type} :
    ∀ (l : List α) (n : Nat) (h : n < l.length), l.get? n = some (l.get ⟨n, h⟩) := by
  intro l
  induction l with
  | nil =>
    intro n h
    exact absurd h (by simp)
  | cons b t ih =>
    intro n h
    cases n with
    | zero => rfl
    | succ m => exact ih m (Nat.lt_of_succ_lt_succ h)

/-- Loop invariant for `filterDepsLoopGo`: every excluded value already
sitting in the live region below the scan index has an excluded twin in
the stale-but-unvisited region, which the scan will still reach and panic
on; hence a scan that completes without panicking leaves no excluded
value in the truncated result. -/
theorem filterDepsLoop_no_excluded (excludes : List String) :
    ∀ (n i : Nat) (arr : List String) (len : Nat) (res : List String),
      arr.length - i = n →
      len ≤ arr.length →
      (∀ p, p < i → p < len → ∀ d, arr.get? p = some d →
        (isExcludedDep excludes d = false ∨
          (isExcludedDep excludes d = true ∧
            ∃ q, i ≤ q ∧ len ≤ q ∧ arr.get? q = some d))) →
      filterDepsLoopGo excludes n i arr len = some res →
      ∀ d ∈ res, isExcludedDep excludes d = false := by
  intro n
  induction n with
  | zero =>
    intro i arr len res hn hlen hJ hrun d hd
    have hres : res = arr.take len := (Option.some.inj hrun).symm
    subst hres
    obtain ⟨p, hp⟩ := exists_get?_of_mem _ d hd
    obtain ⟨hplen, hpget⟩ := get?_take_some arr len p d hp
    have hparr : p < arr.length := lt_length_of_get?_some arr p d hpget
    rcases hJ p (by omega) hplen d hpget with hok | ⟨_, q, hq1, _, hqget⟩
    · exact hok
    · have hqarr : q < arr.length := lt_length_of_get?_some arr q d hqget
      omega
  | succ m ih =>
    intro i arr len res hn hlen hJ hrun d hd
    have hi : i < arr.length := by omega
    simp only [filterDepsLoopGo] at hrun
    by_cases hex : isExcludedDep excludes (arr.getD i "") = true
    · rw [if_pos hex] at hrun
      by_cases hil : i < len
      · rw [if_pos hil] at hrun
        have hl1 : len - 1 < arr.length := by omega
        have hvalget : arr.get? (len - 1) = some (arr.getD (len - 1) "") :=
          get?_eq_some_getD arr (len - 1) "" hl1
        refine ih (i + 1) (arr.set i (arr.getD (len - 1) "")) (len - 1) res ?_ ?_ ?_ hrun d hd
        · rw [List.length_set]
          omega
        · rw [List.length_set]
          omega
        · intro p hp1 hp2 d' hd'
          by_cases hpi : p = i
          · subst hpi
            rw [get?_set_self arr p (arr.getD (len - 1) "") hi] at hd'
            have hdval : d' = arr.getD (len - 1) "" := (Option.some.inj hd').symm
            by_cases hvex : isExcludedDep excludes d' = true
            · refine Or.inr ⟨hvex, len - 1, by omega, by omega, ?_⟩
              rw [get?_set_ne arr p (len - 1) (arr.getD (len - 1) "") (by omega)]
              rw [hdval]
              exact hvalget
            · refine Or.inl ?_
              revert hvex
              cases isExcludedDep excludes d' <;> simp
          · have hpi2 : p < i := by omega
            rw [get?_set_ne arr i p (arr.getD (len - 1) "") (fun h => hpi h.symm)] at hd'
            rcases hJ p hpi2 (by omega) d' hd' with hok | ⟨hexd, q, hq1, hq2, hqget⟩
            · exact Or.inl hok
            · refine Or.inr ⟨hexd, q, by omega, by omega, ?_⟩
              rw [get?_set_ne arr i q (arr.getD (len - 1) "") (by omega)]
              exact hqget
      · rw [if_neg hil] at hrun
        exact absurd hrun (by simp)
    · rw [if_neg hex] at hrun
      have hexf : isExcludedDep excludes (arr.getD i "") = false := by
        revert hex
        cases isExcludedDep excludes (arr.getD i "") <;> simp
      refine ih (i + 1) arr len res (by omega) hlen ?_ hrun d hd
      intro p hp1 hp2 d' hd'
      by_cases hpi : p = i
      · subst hpi
        rw [get?_eq_some_getD arr p "" hi] at hd'
        have hdv : d' = arr.getD p "" := (Option.some.inj hd').symm
        rw [hdv]
        exact Or.inl hexf
      · have hpi2 : p < i := by omega
        rcases hJ p hpi2 hp2 d' hd' with hok | ⟨hexd, q, hq1, hq2, hqget⟩
        · exact Or.inl hok
        · by_cases hqi : q = i
          · subst hqi
            rw [get?_eq_some_getD arr q "" hi] at hqget
            have hdq : d' = arr.getD q "" := (Option.some.inj hqget).symm
            rw [hdq, hexf] at hexd
            exact absurd hexd (by simp)
          · exact Or.inr ⟨hexd, q, by omega, hq2, hqget⟩

theorem filterComponentPackages_no_excluded (excludes : List String) :
    ∀ (pkgs out : List SrcPackage),
      filterComponentPackages excludes pkgs = some out →
      ∀ p ∈ out, ∀ d ∈ p.dependencies, isExcludedDep excludes d = false := by
  intro pkgs
  induction pkgs with
  | nil =>
    intro out h p hp
    have : out = [] := (Option.some.inj h).symm
    subst this
    exact absurd hp (by simp)
  | cons p0 rest ih =>
    intro out h p hp
    simp only [filterComponentPackages] at h
    cases hdeps : filterPackageDeps excludes p0.dependencies with
    | none =>
      rw [hdeps] at h
      exact absurd h (by simp)
    | some deps =>
      rw [hdeps] at h
      cases hrest : filterComponentPackages excludes rest with
      | none =>
        rw [hrest] at h
        exact absurd h (by simp)
      | some others =>
        rw [hrest] at h
        have hout : out = { p0 with dependencies := deps } :: others := by
          have := Option.some.inj h
          exact this.symm
        subst hout
        rcases List.mem_cons.1 hp with h1 | h2
        · intro d hd
          rw [h1] at hd
          refine filterDepsLoop_no_excluded excludes p0.dependencies.length 0
            p0.dependencies p0.dependencies.length deps rfl (Nat.le_refl _) ?_ hdeps d hd
          intro p _ _
          omega
        · exact ih others hrest p h2

/-- C4: for every application loaded with an active variant, every
component the variant excludes is absent from the result together with
its packages (non-excluded components survive by name, in order), and
every surviving package's dependency list is free of references of the
form `C:name` onto an excluded component.  (When the removal loop panics
— modelled by `discoverComponents` returning `none` — no application is
loaded at all and the claim is vacuous.) -/
theorem c4_variant_exclusion (excludes : List String) (comps res : List SrcComponent)
    (h : discoverComponents (some excludes) comps = some res) :
    (∀ c ∈ res, excludeComponent excludes c.name = false)
      ∧ res.map (fun c => c.name)
          = (comps.filter (fun c => !excludeComponent excludes c.name)).map (fun c => c.name)
      ∧ (∀ c ∈ res, ∀ p ∈ c.packages, ∀ d ∈ p.dependencies,
          isExcludedDep excludes d = false) := by
  induction comps generalizing res with
  | nil =>
    have : res = [] := (Option.some.inj h).symm
    subst this
    exact ⟨by simp, by simp, by simp⟩
  | cons c rest ih =>
    simp only [discoverComponents] at h
    cases hfc : filterExcludedComponents (some excludes) c with
    | none =>
      rw [hfc] at h
      exact absurd h (by simp)
    | some fc =>
      rw [hfc] at h
      cases hrest : discoverComponents (some excludes) rest with
      | none =>
        rw [hrest] at h
        exact absurd h (by simp)
      | some others =>
        rw [hrest] at h
        obtain ⟨ih1, ih2, ih3⟩ := ih others hrest
        by_cases hexc : excludeComponent excludes c.name = true
        · have hfc2 : fc = (true, c) := by
            rw [filterExcludedComponents, if_pos hexc] at hfc
            exact (Option.some.inj hfc).symm
          subst hfc2
          have hres : res = others := (Option.some.inj h).symm
          subst hres
          refine ⟨ih1, ?_, ih3⟩
          rw [List.filter_cons, ih2]
          simp [hexc]
        · have hexcf : excludeComponent excludes c.name = false := by
            revert hexc
            cases excludeComponent excludes c.name <;> simp
          rw [filterExcludedComponents, if_neg (by simp [hexcf])] at hfc
          cases hpk : filterComponentPackages excludes c.packages with
          | none =>
            rw [hpk] at hfc
            exact absurd hfc (by simp)
          | some pkgs =>
            rw [hpk] at hfc
            have hfc2 : fc = (false, { c with packages := pkgs }) :=
              (Option.some.inj hfc).symm
            subst hfc2
            have hres : res = { c with packages := pkgs } :: others :=
              (Option.some.inj h).symm
            subst hres
            refine ⟨?_, ?_, ?_⟩
            · intro c' hc'
              rcases List.mem_cons.1 hc' with h1 | h2
              · rw [h1]
                exact hexcf
              · exact ih1 c' h2
            · rw [List.filter_cons]
              simp only [hexcf, Bool.not_false, if_pos]
              rw [List.map_cons, List.map_cons, ih2]
            · intro c' hc' p hp d hd
              rcases List.mem_cons.1 hc' with h1 | h2
              · refine filterComponentPackages_no_excluded excludes c.packages pkgs hpk p ?_ d hd
                rw [h1] at hp
                exact hp
              · exact ih3 c' h2 p hp d hd

/-- C4 witness: a concrete variant excluding component `C` applied to a
concrete component list; the exclusion theorem instantiated there shows
the surviving component is not excluded and its remaining dependency is
not a reference onto `C`. -/
theorem c4_variant_exclusion_witness :
    excludeComponent ["C"] "D" = false ∧ isExcludedDep ["C"] "D:x" = false := by
  have h := c4_variant_exclusion ["C"]
    [{ name := "C", packages := [{ name := "x", dependencies := [] }] },
     { name := "D", packages := [{ name := "y", dependencies := ["C:a", "D:x"] }] }]
    [{ name := "D", packages := [{ name := "y", dependencies := ["D:x"] }] }]
    (by decide)
  refine ⟨h.1 _ (List.mem_singleton.2 rfl), ?_⟩
  exact h.2.2 _ (List.mem_singleton.2 rfl) _ (List.mem_singleton.2 rfl) _
    (List.mem_singleton.2 rfl)

/-! ## C1: dependency-cycle detection (`findCycle` modelled from the
spec, the cycle check of `loadApplication` from part_007 lines 380-392) -/

/-- Dependency graph: the application package index, associating fully
qualified package names with the names of their (linked) dependencies. -/
abbrev DepGraph := List (String × List String)

/-- The dependency list of an indexed package (empty for unknown names,
which a linked application never contains). -/
def depsOf (g : DepGraph) (name : String) : List String :=
  match g with
  | [] => []
  | (n, ds) :: rest => if n = name then ds else depsOf rest name

/-- The names indexed by the graph. -/
def keysOf (g : DepGraph) : List String :=
  g.map Prod.fst

/-- Drop the part of the path before the first occurrence of `x`: the
cycle proper starts at the revisited node. -/
def dropUntil (x : String) : List String → List String
  | [] => []
  | y :: rest => if y = x then y :: rest else dropUntil x rest

/-- The first non-empty cycle (or the first error) produced by visiting a
list of children. -/
def firstCycle (f : String → Except Unit (List String)) : List String → Except Unit (List String)
  | [] => .ok []
  | d :: ds =>
    match f d with
    | .ok [] => firstCycle f ds
    | r => r

/-- Modelled from the spec: `Package.findCycle` is not under `src/` (only
its tests are).  Per the spec, a depth-limited DFS over dependencies: a
node revisited on the current path yields the full cycle as a path
(starting and ending at that node); recursion deeper than the fuel,
initially the package count, fails (`IndexCorrupt`, modelled `.error ()`).
The engine tests pin the path order and the depth-exhaustion error. -/
def findCycleVisit (g : DepGraph) : Nat → List String → String → Except Unit (List String)
  | 0, path, n =>
    if n ∈ path then .ok (dropUntil n path ++ [n]) else .error ()
  | Nat.succ fuel, path, n =>
    if n ∈ path then .ok (dropUntil n path ++ [n])
    else firstCycle (findCycleVisit g fuel (path ++ [n])) (depsOf g n)

/-- Modelled from the spec: the cycle search for one package, with the
recursion depth limited by the number of indexed packages. -/
def findCycle (g : DepGraph) (n : String) : Except Unit (List String) :=
  findCycleVisit g g.length [] n

/-- Embeds the cycle check of `loadApplication` (part_007 lines 380-392)
over the indexed packages: a `findCycle` error is logged as a warning and
the package is skipped; a non-empty cycle aborts the load with the cycle
joined by `" -> "`. -/
def cycleCheckGo (g : DepGraph) : DepGraph → Except String Unit
  | [] => .ok ()
  | (n, _) :: rest =>
    match findCycle g n with
    | .error _ => cycleCheckGo g rest
    | .ok [] => cycleCheckGo g rest
    | .ok c => .error ("dependency cycle found: " ++ String.intercalate " -> " c)

/-- The cycle check over the whole package index. -/
def cycleCheck (g : DepGraph) : Except String Unit :=
  cycleCheckGo g g

/-- Non-empty dependency paths in the graph. -/
inductive DepPath (g : DepGraph) : String → String → Prop where
  | single {n d : String} : d ∈ depsOf g n → DepPath g n d
  | cons {n d m : String} : d ∈ depsOf g n → DepPath g d m → DepPath g n m

/-- Every dependency of an indexed package is itself indexed. -/
def ClosedGraph (g : DepGraph) : Prop :=
  ∀ e ∈ g, ∀ d ∈ e.2, d ∈ keysOf g

theorem visit_ok_nil_not_mem (g : DepGraph) (fuel : Nat) (path : List String) (n : String)
    (h : findCycleVisit g fuel path n = .ok []) : n ∉ path := by
  intro hmem
  cases fuel with
  | zero =>
    simp only [findCycleVisit, if_pos hmem] at h
    exact absurd (Except.ok.inj h) (by simp)
  | succ f =>
    simp only [findCycleVisit, if_pos hmem] at h
    exact absurd (Except.ok.inj h) (by simp)

theorem firstCycle_ok_nil (f : String → Except Unit (List String)) :
    ∀ l, firstCycle f l = .ok [] → ∀ d ∈ l, f d = .ok [] := by
  intro l
  induction l with
  | nil =>
    intro _ d hd
    exact absurd hd (by simp)
  | cons a t ih =>
    intro h d hd
    simp only [firstCycle] at h
    cases hf : f a with
    | error e =>
      rw [hf] at h
      exact Except.noConfusion h
    | ok c =>
      cases c with
      | nil =>
        rw [hf] at h
        rcases List.mem_cons.1 hd with h1 | h2
        · rw [h1]
          exact hf
        · exact ih h d h2
      | cons x xs =>
        rw [hf] at h
        exact absurd (Except.ok.inj h) (by simp)

theorem visit_ok_nil_no_path (g : DepGraph) :
    ∀ (fuel : Nat) (path : List String) (n : String),
      findCycleVisit g fuel path n = .ok [] →
      ∀ m, DepPath g n m → m ∉ path ++ [n] := by
  intro fuel
  induction fuel with
  | zero =>
    intro path n h
    exfalso
    by_cases hm : n ∈ path
    · simp only [findCycleVisit, if_pos hm] at h
      exact absurd (Except.ok.inj h) (by simp)
    · simp only [findCycleVisit, if_neg hm] at h
      exact Except.noConfusion h
  | succ f ih =>
    intro path n h m hpath hmem
    have hn : n ∉ path := visit_ok_nil_not_mem g (f + 1) path n h
    have hfold : firstCycle (findCycleVisit g f (path ++ [n])) (depsOf g n) = .ok [] := by
      simpa only [findCycleVisit, if_neg hn] using h
    cases hpath with
    | single hd =>
      have hchild := firstCycle_ok_nil _ _ hfold m hd
      exact visit_ok_nil_not_mem g f (path ++ [n]) m hchild hmem
    | cons hd hrest =>
      have hchild := firstCycle_ok_nil _ _ hfold _ hd
      exact ih (path ++ [n]) _ hchild m hrest (List.mem_append_left _ hmem)

theorem nodup_length_le {α : Type} [DecidableEq α] (l L : List α) (hn : l.Nodup)
    (hs : ∀ x ∈ l, x ∈ L) : l.length ≤ L.length := by
  calc l.length = l.toFinset.card := (List.toFinset_card_of_nodup hn).symm
    _ ≤ L.toFinset.card :=
        Finset.card_le_card (fun x hx => List.mem_toFinset.2 (hs x (List.mem_toFinset.1 hx)))
    _ ≤ L.length := L.toFinset_card_le

theorem depsOf_entry :
    ∀ (g : DepGraph) (n : String), depsOf g n = [] ∨ (n, depsOf g n) ∈ g := by
  intro g
  induction g with
  | nil => exact fun _ => Or.inl rfl
  | cons e rest ih =>
    intro n
    obtain ⟨m, ds⟩ := e
    by_cases hm : m = n
    · subst hm
      refine Or.inr ?_
      rw [show depsOf ((m, ds) :: rest) m = ds from by simp [depsOf]]
      exact List.mem_cons_self _ _
    · rw [show depsOf ((m, ds) :: rest) n = depsOf rest n from by simp [depsOf, hm]]
      rcases ih n with h1 | h2
      · exact Or.inl h1
      · exact Or.inr (List.mem_cons_of_mem _ h2)

theorem depsOf_subset_keys (g : DepGraph) (hclosed : ClosedGraph g) (n d : String)
    (hd : d ∈ depsOf g n) : d ∈ keysOf g := by
  rcases depsOf_entry g n with hnil | hmem
  · rw [hnil] at hd
    exact absurd hd (by simp)
  · exact hclosed _ hmem d hd

theorem firstCycle_ok_of_all (f : String → Except Unit (List String)) :
    ∀ l, (∀ d ∈ l, ∃ v, f d = .ok v) → ∃ v, firstCycle f l = .ok v := by
  intro l
  induction l with
  | nil => exact fun _ => ⟨[], rfl⟩
  | cons a t ih =>
    intro h
    obtain ⟨v, hv⟩ := h a (List.mem_cons_self a t)
    cases v with
    | nil =>
      obtain ⟨w, hw⟩ := ih (fun d hd => h d (List.mem_cons_of_mem a hd))
      refine ⟨w, ?_⟩
      simp only [firstCycle, hv]
      exact hw
    | cons x xs =>
      refine ⟨x :: xs, ?_⟩
      simp only [firstCycle, hv]

theorem visit_no_error (g : DepGraph) (hclosed : ClosedGraph g) :
    ∀ (fuel : Nat) (path : List String) (n : String),
      path.Nodup → (∀ x ∈ path, x ∈ keysOf g) → n ∈ keysOf g →
      g.length - path.length ≤ fuel →
      ∃ v, findCycleVisit g fuel path n = .ok v := by
  intro fuel
  induction fuel with
  | zero =>
    intro path n hnd hsub hkey hfuel
    by_cases hm : n ∈ path
    · exact ⟨dropUntil n path ++ [n], by simp only [findCycleVisit, if_pos hm]⟩
    · exfalso
      have hlen : (n :: path).length ≤ (keysOf g).length := by
        refine nodup_length_le (n :: path) (keysOf g) (List.nodup_cons.2 ⟨hm, hnd⟩) ?_
        intro x hx
        rcases List.mem_cons.1 hx with h1 | h2
        · rw [h1]; exact hkey
        · exact hsub x h2
      have hkl : (keysOf g).length = g.length := List.length_map _ _
      simp only [List.length_cons] at hlen
      omega
  | succ f ih =>
    intro path n hnd hsub hkey hfuel
    by_cases hm : n ∈ path
    · exact ⟨dropUntil n path ++ [n], by simp only [findCycleVisit, if_pos hm]⟩
    · have hall : ∀ d ∈ depsOf g n, ∃ v, findCycleVisit g f (path ++ [n]) d = .ok v := by
        intro d hd
        refine ih (path ++ [n]) d ?_ ?_ (depsOf_subset_keys g hclosed n d hd) ?_
        · simp [List.nodup_append, hnd, hm]
        · intro x hx
          rcases List.mem_append.1 hx with h1 | h2
          · exact hsub x h1
          · rw [List.mem_singleton.1 h2]
            exact hkey
        · simp only [List.length_append, List.length_singleton]
          omega
      obtain ⟨v, hv⟩ := firstCycle_ok_of_all _ _ hall
      refine ⟨v, ?_⟩
      simp only [findCycleVisit, if_neg hm]
      exact hv

theorem dropUntil_shape (x : String) :
    ∀ p : List String, dropUntil x p = [] ∨ ∃ t, dropUntil x p = x :: t := by
  intro p
  induction p with
  | nil => exact Or.inl rfl
  | cons y rest ih =>
    by_cases hy : y = x
    · subst hy
      exact Or.inr ⟨rest, by simp [dropUntil]⟩
    · simp only [dropUntil, if_neg hy]
      exact ih

theorem cycle_endpoints (x : String) (p : List String) :
    ∃ y, (dropUntil x p ++ [x]).head? = some y ∧ (dropUntil x p ++ [x]).getLast? = some y := by
  refine ⟨x, ?_, by rw [List.getLast?_concat]⟩
  rcases dropUntil_shape x p with h | ⟨t, h⟩
  · rw [h]
    rfl
  · rw [h]
    rfl

theorem firstCycle_ok_ne_nil (f : String → Except Unit (List String)) :
    ∀ l c, firstCycle f l = .ok c → c ≠ [] → ∃ d ∈ l, f d = .ok c := by
  intro l
  induction l with
  | nil =>
    intro c h hne
    exact absurd (Except.ok.inj h).symm hne
  | cons a t ih =>
    intro c h hne
    simp only [firstCycle] at h
    cases hf : f a with
    | error e =>
      rw [hf] at h
      exact Except.noConfusion h
    | ok v =>
      cases v with
      | nil =>
        rw [hf] at h
        obtain ⟨d, hd, hfd⟩ := ih c h hne
        exact ⟨d, List.mem_cons_of_mem a hd, hfd⟩
      | cons x xs =>
        rw [hf] at h
        exact ⟨a, List.mem_cons_self a t, hf.trans (congrArg Except.ok (Except.ok.inj h))⟩

theorem visit_ok_shape (g : DepGraph) :
    ∀ (fuel : Nat) (path : List String) (n : String) (c : List String),
      findCycleVisit g fuel path n = .ok c → c ≠ [] →
      ∃ x, c.head? = some x ∧ c.getLast? = some x := by
  intro fuel
  induction fuel with
  | zero =>
    intro path n c h _
    by_cases hm : n ∈ path
    · simp only [findCycleVisit, if_pos hm] at h
      rw [← Except.ok.inj h]
      exact cycle_endpoints n path
    · simp only [findCycleVisit, if_neg hm] at h
      exact Except.noConfusion h
  | succ f ih =>
    intro path n c h hne
    by_cases hm : n ∈ path
    · simp only [findCycleVisit, if_pos hm] at h
      rw [← Except.ok.inj h]
      exact cycle_endpoints n path
    · simp only [findCycleVisit, if_neg hm] at h
      obtain ⟨d, _, hfd⟩ := firstCycle_ok_ne_nil _ _ c h hne
      exact ih (path ++ [n]) d c hfd hne

theorem cycleCheckGo_ok (g : DepGraph) :
    ∀ l, cycleCheckGo g l = .ok () →
      ∀ e ∈ l, findCycle g e.1 = .error () ∨ findCycle g e.1 = .ok [] := by
  intro l
  induction l with
  | nil =>
    intro _ e he
    exact absurd he (by simp)
  | cons hd rest ih =>
    intro h e he
    obtain ⟨n, ds⟩ := hd
    simp only [cycleCheckGo] at h
    cases hf : findCycle g n with
    | error u =>
      rw [hf] at h
      rcases List.mem_cons.1 he with h1 | h2
      · rw [h1]
        cases u
        exact Or.inl hf
      · exact ih h e h2
    | ok c =>
      cases c with
      | nil =>
        rw [hf] at h
        rcases List.mem_cons.1 he with h1 | h2
        · rw [h1]
          exact Or.inr hf
        · exact ih h e h2
      | cons x xs =>
        rw [hf] at h
        exact Except.noConfusion h

theorem cycleCheckGo_error_shape (g : DepGraph) :
    ∀ l msg, cycleCheckGo g l = .error msg →
      ∃ c, msg = "dependency cycle found: " ++ String.intercalate " -> " c ∧ c ≠ [] ∧
        ∃ x, c.head? = some x ∧ c.getLast? = some x := by
  intro l
  induction l with
  | nil =>
    intro msg h
    exact Except.noConfusion h
  | cons hd rest ih =>
    intro msg h
    obtain ⟨n, ds⟩ := hd
    simp only [cycleCheckGo] at h
    cases hf : findCycle g n with
    | error u =>
      rw [hf] at h
      exact ih msg h
    | ok c =>
      cases c with
      | nil =>
        rw [hf] at h
        exact ih msg h
      | cons x xs =>
        rw [hf] at h
        refine ⟨x :: xs, (Except.error.inj h).symm, by simp, ?_⟩
        exact visit_ok_shape g g.length [] n (x :: xs) hf (by simp)

/-- C1 counterexample: the claim says that when the cycle-search recursion
depth exceeds the number of indexed packages, loading fails with an
internal index-corruption error.  With one indexed package `a` whose
linked dependency `x` is not indexed, `findCycle` does fail with the
depth-exhaustion error, but the load check (part_007 lines 383-386) logs
a warning, skips the package and completes successfully instead of
failing. -/
theorem c1_index_corrupt_counterexample :
    findCycle [("a", ["x"])] "a" = .error ()
      ∧ cycleCheck [("a", ["x"])] = .ok ()
      ∧ ∀ msg, cycleCheck [("a", ["x"])] ≠ .error msg := by
  refine ⟨rfl, rfl, fun msg h => Except.noConfusion h⟩

/-- C1 (amended): for every closed package index in which some package
lies on a dependency cycle, the cycle check of `loadApplication` fails,
and the error text is exactly `dependency cycle found: ` followed by the
cycle as an ordered path joined by `" -> "`, starting and ending at the
same name (for the two-package cycle the text contains `a -> b -> a`);
when the cycle-search recursion depth exceeds the number of indexed
packages, that package's cycle detection is skipped with a warning and
loading continues instead of failing. -/
theorem c1_cycle_detection :
    (∀ g : DepGraph, ClosedGraph g → (∃ n, n ∈ keysOf g ∧ DepPath g n n) →
        ∃ msg c, cycleCheck g = .error msg
          ∧ msg = "dependency cycle found: " ++ String.intercalate " -> " c
          ∧ c ≠ [] ∧ ∃ x, c.head? = some x ∧ c.getLast? = some x)
      ∧ cycleCheck [("a", ["b"]), ("b", ["a"])] = .error "dependency cycle found: a -> b -> a"
      ∧ findCycle [("a", ["x"])] "a" = .error ()
      ∧ cycleCheck [("a", ["x"])] = .ok () := by
  refine ⟨?_, rfl, rfl, rfl⟩
  rintro g hclosed ⟨n, hkey, hcyc⟩
  cases hcc : cycleCheck g with
  | ok u =>
    exfalso
    cases u
    obtain ⟨e, he, hen⟩ := List.mem_map.1 hkey
    have h2 := cycleCheckGo_ok g g hcc e he
    rw [hen] at h2
    rcases h2 with herr | hnil
    · obtain ⟨v, hv⟩ := visit_no_error g hclosed g.length [] n List.nodup_nil
        (by simp) hkey (by omega)
      rw [findCycle, hv] at herr
      exact Except.noConfusion herr
    · exact visit_ok_nil_no_path g g.length [] n hnil n hcyc (by simp)
  | error msg =>
    obtain ⟨c, hmsg, hne, hshape⟩ := cycleCheckGo_error_shape g g msg hcc
    exact ⟨msg, c, rfl, hmsg, hne, hshape⟩

/-- C1 witness: the cycle theorem applied at the concrete two-package
cycle, whose closedness and cyclicity are discharged concretely. -/
theorem c1_cycle_detection_witness :
    cycleCheck [("a", ["b"]), ("b", ["a"])] = .error "dependency cycle found: a -> b -> a" := by
  obtain ⟨msg, c, hcc, hmsg, hne, hx⟩ := c1_cycle_detection.1 [("a", ["b"]), ("b", ["a"])]
    (by unfold ClosedGraph; decide)
    ⟨"a", by decide, DepPath.cons (d := "b") (by decide) (DepPath.single (by decide))⟩
  exact rfl

/-! ## Keyed association lists with values of any type (Go maps keyed by
strings), for the environment-manifest map -/

/-- Insert-or-replace in a keyed association list. -/
def keyedInsert {α : Type} : List (String × α) → String → α → List (String × α)
  | [], k, v => [(k, v)]
  | (k0, v0) :: rest, k, v =>
    if k0 = k then (k, v) :: rest else (k0, v0) :: keyedInsert rest k v

/-- First binding of a key. -/
def keyedLookup {α : Type} : List (String × α) → String → Option α
  | [], _ => none
  | (k0, v0) :: rest, k => if k0 = k then some v0 else keyedLookup rest k

/-- Last binding of a key in an iteration list. -/
def keyedLookupLast {α : Type} (m : List (String × α)) (k : String) : Option α :=
  keyedLookup m.reverse k

/-- Go map assignment of every binding of `src` into `dst`, in order. -/
def keyedInsertAll {α : Type} (dst src : List (String × α)) : List (String × α) :=
  src.foldl (fun m kv => keyedInsert m kv.1 kv.2) dst

theorem keyedLookup_cons {α : Type} (k0 : String) (v0 : α) (rest : List (String × α))
    (k : String) :
    keyedLookup ((k0, v0) :: rest) k = if k0 = k then some v0 else keyedLookup rest k := rfl

theorem keyed_some_or {α : Type} (a : α) (o : Option α) : (some a).or o = some a := rfl

theorem keyed_none_or {α : Type} (o : Option α) : (Option.none).or o = o := rfl

theorem keyedLookup_keyedInsert {α : Type} (m : List (String × α)) (k : String) (v : α)
    (k' : String) :
    keyedLookup (keyedInsert m k v) k' = if k = k' then some v else keyedLookup m k' := by
  induction m with
  | nil => simp [keyedInsert, keyedLookup]
  | cons hd tl ih =>
    obtain ⟨k0, v0⟩ := hd
    by_cases h0 : k0 = k
    · subst h0
      rw [show keyedInsert ((k0, v0) :: tl) k0 v = (k0, v) :: tl from by simp [keyedInsert]]
      by_cases h1 : k0 = k' <;> simp [keyedLookup_cons, h1]
    · rw [show keyedInsert ((k0, v0) :: tl) k v = (k0, v0) :: keyedInsert tl k v from by
        simp [keyedInsert, h0]]
      rw [keyedLookup_cons, keyedLookup_cons, ih]
      by_cases h1 : k0 = k'
      · have h2 : ¬k = k' := fun h => h0 (h1.trans h.symm)
        simp [h1, h2]
      · simp [h1]

theorem keyedLookup_append {α : Type} (l1 l2 : List (String × α)) (k : String) :
    keyedLookup (l1 ++ l2) k = (keyedLookup l1 k).or (keyedLookup l2 k) := by
  induction l1 with
  | nil => exact (keyed_none_or _).symm
  | cons hd tl ih =>
    obtain ⟨k0, v0⟩ := hd
    rw [List.cons_append, keyedLookup_cons, keyedLookup_cons]
    by_cases hk : k0 = k
    · rw [if_pos hk, if_pos hk, keyed_some_or]
    · rw [if_neg hk, if_neg hk, ih]

theorem keyedLookupLast_cons {α : Type} (k0 : String) (v0 : α) (tl : List (String × α))
    (k : String) :
    keyedLookupLast ((k0, v0) :: tl) k =
      (keyedLookupLast tl k).or (if k0 = k then some v0 else none) := by
  unfold keyedLookupLast
  rw [List.reverse_cons, keyedLookup_append, keyedLookup_cons]
  cases hl : keyedLookup tl.reverse k with
  | none =>
    rw [keyed_none_or, keyed_none_or]
    by_cases hk : k0 = k
    · simp [hk]
    · simp [hk, keyedLookup]
  | some v1 => simp [keyed_some_or]

theorem keyedInsertAll_lookup {α : Type} (dst src : List (String × α)) (k : String) :
    keyedLookup (keyedInsertAll dst src) k =
      (keyedLookupLast src k).or (keyedLookup dst k) := by
  induction src generalizing dst with
  | nil =>
    show keyedLookup dst k = (keyedLookupLast [] k).or (keyedLookup dst k)
    exact (keyed_none_or _).symm
  | cons hd tl ih =>
    obtain ⟨k0, v0⟩ := hd
    show keyedLookup (keyedInsertAll (keyedInsert dst k0 v0) tl) k = _
    rw [ih, keyedLookup_keyedInsert, keyedLookupLast_cons]
    cases hl : keyedLookupLast tl k with
    | none =>
      rw [keyed_none_or, keyed_none_or]
      by_cases hk : k0 = k
      · simp [hk, keyed_some_or]
      · simp [hk, keyed_none_or]
    | some v1 => simp [keyed_some_or]

/-! ## C6: environment-manifest resolution (part_007 lines 98-122 and
422-468) -/

/-- The package types (engine constants referenced across src/). -/
inductive PackageType where
  | yarnPkg
  | goPkg
  | dockerPkg
  | genericPkg
deriving DecidableEq

/-- An environment-manifest entry (part_007 lines 85-91): user entries
parsed from YAML always carry `builtin = false` since that field is not
read from the manifest. -/
structure EnvManifestEntry where
  name : String
  command : List String
  value : String
  builtin : Bool
deriving DecidableEq

/-- Embeds the always-present defaults under the empty package-type key
(part_007 lines 99-102): the builtin `os` and `arch` entries. -/
def defaultEnvEntriesBase : List EnvManifestEntry :=
  [{ name := "os", command := ["goos"], value := "", builtin := true },
   { name := "arch", command := ["goarch"], value := "", builtin := true }]

/-- Embeds the per-package-type defaults (part_007 lines 103-122). -/
def defaultEnvEntries : PackageType → List EnvManifestEntry
  | .genericPkg => []
  | .dockerPkg => []
  | .goPkg => [{ name := "go", command := ["go", "version"], value := "", builtin := false }]
  | .yarnPkg =>
    [{ name := "yarn", command := ["yarn", "-v"], value := "", builtin := false },
     { name := "node", command := ["node", "--version"], value := "", builtin := false }]

/-- Key an entry list by entry name. -/
def keyedByName (l : List EnvManifestEntry) : List (String × EnvManifestEntry) :=
  l.map (fun e => (e.name, e))

/-- Embeds the map construction of `buildEnvironmentManifest` (part_007
lines 425-437): base defaults first, then defaults for every used package
type, then the user entries, each overriding by name. -/
def envMap (entries : List EnvManifestEntry) (tpes : List PackageType) :
    List (String × EnvManifestEntry) :=
  keyedInsertAll
    (keyedInsertAll (keyedInsertAll [] (keyedByName defaultEnvEntriesBase))
      (keyedByName ((tpes.map defaultEnvEntries).flatten)))
    (keyedByName entries)

/-- Embeds the resolution of one entry (part_007 lines 439-461): builtin
entries take the host values according to their command head; any other
entry executes its command (passed in as the oracle `runCmd`) and trims
the output; failure produces the error naming the entry; an entry with an
empty command would be a Go index panic, modelled `none`. -/
def resolveEnvEntryAux (runCmd : List String → Except String String) (goos goarch : String)
    (e : EnvManifestEntry) : List String → Option (Except String EnvManifestEntry)
  | [] => none
  | c0 :: rest =>
    if e.builtin then
      some (.ok (if c0 = "goarch" then { e with value := goarch }
        else if c0 = "goos" then { e with value := goos } else e))
    else
      some (match runCmd (c0 :: rest) with
        | .ok out => .ok { e with value := out.trim }
        | .error err =>
          .error ("cannot resolve env manifest entry " ++ e.name ++ ": " ++ err))

/-- Resolution of one entry, dispatching on its command slice. -/
def resolveEnvEntry (runCmd : List String → Except String String) (goos goarch : String)
    (e : EnvManifestEntry) : Option (Except String EnvManifestEntry) :=
  resolveEnvEntryAux runCmd goos goarch e e.command

/-- Resolution over the whole map, first failure wins. -/
def resolveAllEnv (runCmd : List String → Except String String) (goos goarch : String) :
    List EnvManifestEntry → Option (Except String (List EnvManifestEntry))
  | [] => some (.ok [])
  | e :: rest =>
    match resolveEnvEntry runCmd goos goarch e with
    | none => none
    | some (.error msg) => some (.error msg)
    | some (.ok e2) =>
      match resolveAllEnv runCmd goos goarch rest with
      | none => none
      | some (.error msg) => some (.error msg)
      | some (.ok res) => some (.ok (e2 :: res))

/-- Byte-lexicographic string order, as Go compares strings. -/
def charListLe : List Char → List Char → Bool
  | [], _ => true
  | _ :: _, [] => false
  | a :: as, b :: bs =>
    if a.toNat < b.toNat then true
    else if b.toNat < a.toNat then false
    else charListLe as bs

/-- Lexicographic comparison of entry names. -/
def nameLe (a b : String) : Bool :=
  charListLe a.data b.data

/-- Insertion into a name-sorted entry list. -/
def insertByName (e : EnvManifestEntry) : List EnvManifestEntry → List EnvManifestEntry
  | [] => [e]
  | e0 :: rest => if nameLe e.name e0.name then e :: e0 :: rest else e0 :: insertByName e rest

/-- The final `sort.Slice(res, res[i].Name < res[j].Name)` of part_007
line 463 (entry names are unique, so any by-name sort gives the same
list). -/
def sortByName (l : List EnvManifestEntry) : List EnvManifestEntry :=
  l.foldr insertByName []

/-- Embeds `buildEnvironmentManifest` (part_007 lines 422-468). -/
def buildEnvironmentManifest (entries : List EnvManifestEntry) (tpes : List PackageType)
    (runCmd : List String → Except String String) (goos goarch : String) :
    Option (Except String (List EnvManifestEntry)) :=
  match resolveAllEnv runCmd goos goarch ((envMap entries tpes).map Prod.snd) with
  | none => none
  | some (.error msg) => some (.error msg)
  | some (.ok res) => some (.ok (sortByName res))

/-- The claim's manifest map, following the claim's words: the union of
the user entries with the default entries for exactly the package types
present in the application, user entries overriding by name — and
nothing else. -/
def claimEnvManifestMap (entries : List EnvManifestEntry) (tpes : List PackageType) :
    List (String × EnvManifestEntry) :=
  keyedInsertAll (keyedInsertAll [] (keyedByName ((tpes.map defaultEnvEntries).flatten)))
    (keyedByName entries)

/-- C6 counterexample: for an application whose only package type is
generic and which declares no manifest entries, the claim's manifest (the
union of user entries with the defaults of exactly the types present) is
empty, but the code always injects the builtin `os` and `arch` defaults
keyed under the empty package type (part_007 lines 426-428), so the
resolved manifest contains them. -/
theorem c6_defaults_counterexample :
    claimEnvManifestMap [] [.genericPkg] = []
      ∧ buildEnvironmentManifest [] [.genericPkg] (fun _ => .ok "") "linux" "amd64"
        = some (.ok
          [{ name := "arch", command := ["goarch"], value := "amd64", builtin := true },
           { name := "os", command := ["goos"], value := "linux", builtin := true }])
      ∧ ([{ name := "arch", command := ["goarch"], value := "amd64", builtin := true },
          { name := "os", command := ["goos"], value := "linux", builtin := true }]
            : List EnvManifestEntry) ≠ [] := by
  refine ⟨rfl, rfl, by simp⟩

theorem charListLe_total : ∀ a b : List Char, charListLe a b = true ∨ charListLe b a = true := by
  intro a
  induction a with
  | nil => intro b; exact Or.inl rfl
  | cons x xs ih =>
    intro b
    cases b with
    | nil => exact Or.inr rfl
    | cons y ys =>
      by_cases h1 : x.toNat < y.toNat
      · exact Or.inl (by simp [charListLe, h1])
      · by_cases h2 : y.toNat < x.toNat
        · exact Or.inr (by simp [charListLe, h2])
        · rcases ih ys with h | h
          · exact Or.inl (by simp [charListLe, h1, h2, h])
          · exact Or.inr (by simp [charListLe, h1, h2, h])

theorem nameLe_total (a b : String) : nameLe a b = true ∨ nameLe b a = true :=
  charListLe_total a.data b.data

/-- Head-bound used by the sortedness predicate. -/
def headLe (a : EnvManifestEntry) : List EnvManifestEntry → Bool
  | [] => true
  | b :: _ => nameLe a.name b.name

/-- The list is sorted by entry name. -/
def sortedByName : List EnvManifestEntry → Bool
  | [] => true
  | a :: l => headLe a l && sortedByName l

theorem mem_insertByName (e x : EnvManifestEntry) :
    ∀ l, x ∈ insertByName e l ↔ x = e ∨ x ∈ l := by
  intro l
  induction l with
  | nil => simp [insertByName]
  | cons e0 t ih =>
    by_cases h : nameLe e.name e0.name
    · simp only [insertByName, if_pos h]
      constructor
      · intro hx
        rcases List.mem_cons.1 hx with h1 | h2
        · exact Or.inl h1
        · exact Or.inr h2
      · intro hx
        rcases hx with h1 | h2
        · exact List.mem_cons.2 (Or.inl h1)
        · exact List.mem_cons.2 (Or.inr h2)
    · simp only [insertByName, if_neg h]
      constructor
      · intro hx
        rcases List.mem_cons.1 hx with h1 | h2
        · exact Or.inr (List.mem_cons.2 (Or.inl h1))
        · rcases ih.1 h2 with h3 | h4
          · exact Or.inl h3
          · exact Or.inr (List.mem_cons.2 (Or.inr h4))
      · intro hx
        rcases hx with h1 | h2
        · exact List.mem_cons.2 (Or.inr (ih.2 (Or.inl h1)))
        · rcases List.mem_cons.1 h2 with h3 | h4
          · exact List.mem_cons.2 (Or.inl h3)
          · exact List.mem_cons.2 (Or.inr (ih.2 (Or.inr h4)))

theorem mem_sortByName (x : EnvManifestEntry) :
    ∀ l, x ∈ sortByName l ↔ x ∈ l := by
  intro l
  induction l with
  | nil => simp [sortByName]
  | cons a t ih =>
    show x ∈ insertByName a (sortByName t) ↔ _
    rw [mem_insertByName, ih]
    constructor
    · intro h
      rcases h with h1 | h2
      · exact List.mem_cons.2 (Or.inl h1)
      · exact List.mem_cons.2 (Or.inr h2)
    · intro h
      rcases List.mem_cons.1 h with h1 | h2
      · exact Or.inl h1
      · exact Or.inr h2

theorem sortedByName_tail (a : EnvManifestEntry) (l : List EnvManifestEntry)
    (h : sortedByName (a :: l) = true) : sortedByName l = true := by
  simp only [sortedByName, Bool.and_eq_true] at h
  exact h.2

theorem insertByName_sorted (e : EnvManifestEntry) :
    ∀ l, sortedByName l = true → sortedByName (insertByName e l) = true := by
  intro l
  induction l with
  | nil => intro _; simp [insertByName, sortedByName, headLe]
  | cons e0 t ih =>
    intro hs
    have ht : sortedByName t = true := sortedByName_tail e0 t hs
    have hh : headLe e0 t = true := by
      simp only [sortedByName, Bool.and_eq_true] at hs
      exact hs.1
    by_cases hle : nameLe e.name e0.name
    · simp only [insertByName, if_pos hle]
      simp only [sortedByName, headLe, Bool.and_eq_true]
      exact ⟨hle, hh, ht⟩
    · have hge : nameLe e0.name e.name = true := by
        rcases nameLe_total e.name e0.name with h | h
        · exact absurd h hle
        · exact h
      simp only [insertByName, if_neg hle]
      simp only [sortedByName, Bool.and_eq_true]
      refine ⟨?_, ?_⟩
      · cases t with
        | nil => exact hge
        | cons e1 t2 =>
          simp only [insertByName]
          by_cases hle1 : nameLe e.name e1.name
          · rw [if_pos hle1]
            exact hge
          · rw [if_neg hle1]
            exact hh
      · have := ih ht
        cases t with
        | nil => simp [insertByName, sortedByName, headLe]
        | cons e1 t2 => exact this

theorem sortByName_sorted : ∀ l, sortedByName (sortByName l) = true := by
  intro l
  induction l with
  | nil => rfl
  | cons a t ih => exact insertByName_sorted a (sortByName t) ih

theorem resolveEnvEntry_ok_spec (runCmd : List String → Except String String)
    (goos goarch : String) (e e2 : EnvManifestEntry)
    (h : resolveEnvEntry runCmd goos goarch e = some (.ok e2)) :
    e2.name = e.name ∧ e2.command = e.command ∧ e2.builtin = e.builtin
      ∧ (e.builtin = true →
          (e.command.head? = some "goarch" → e2.value = goarch)
          ∧ (e.command.head? = some "goos" → e2.value = goos))
      ∧ (e.builtin = false → ∃ out, runCmd e.command = .ok out ∧ e2.value = out.trim) := by
  cases hc : e.command with
  | nil =>
    rw [resolveEnvEntry, hc] at h
    exact Option.noConfusion h
  | cons c0 rest =>
    rw [resolveEnvEntry, hc] at h
    simp only [resolveEnvEntryAux] at h
    by_cases hb : e.builtin = true
    · rw [if_pos hb] at h
      by_cases ha : c0 = "goarch"
      · rw [if_pos ha] at h
        have he2 := Except.ok.inj (Option.some.inj h)
        subst he2
        refine ⟨rfl, hc, rfl, fun _ => ⟨fun _ => rfl, fun hgoos => ?_⟩, fun hf => ?_⟩
        · exact absurd (ha.symm.trans (Option.some.inj hgoos)) (by decide)
        · rw [hf] at hb
          exact absurd hb (by simp)
      · rw [if_neg ha] at h
        by_cases ho : c0 = "goos"
        · rw [if_pos ho] at h
          have he2 := Except.ok.inj (Option.some.inj h)
          subst he2
          refine ⟨rfl, hc, rfl, fun _ => ⟨fun hgoarch => ?_, fun _ => rfl⟩, fun hf => ?_⟩
          · exact absurd (ho.symm.trans (Option.some.inj hgoarch)) (by decide)
          · rw [hf] at hb
            exact absurd hb (by simp)
        · rw [if_neg ho] at h
          have he2 := Except.ok.inj (Option.some.inj h)
          subst he2
          refine ⟨rfl, hc, rfl, fun _ => ⟨fun hgoarch => ?_, fun hgoos => ?_⟩, fun hf => ?_⟩
          · exact absurd (Option.some.inj hgoarch) ha
          · exact absurd (Option.some.inj hgoos) ho
          · rw [hf] at hb
            exact absurd hb (by simp)
    · rw [if_neg hb] at h
      have hbf : e.builtin = false := by
        revert hb
        cases e.builtin <;> simp
      cases hr : runCmd (c0 :: rest) with
      | ok out =>
        rw [hr] at h
        have he2 := Except.ok.inj (Option.some.inj h)
        subst he2
        refine ⟨rfl, hc, rfl, fun ht => ?_, fun _ => ?_⟩
        · rw [ht] at hbf
          exact absurd hbf (by simp)
        · exact ⟨out, rfl, rfl⟩
      | error err =>
        rw [hr] at h
        exact Except.noConfusion (Option.some.inj h)

theorem resolveEnvEntry_error_spec (runCmd : List String → Except String String)
    (goos goarch : String) (e : EnvManifestEntry) (msg : String)
    (h : resolveEnvEntry runCmd goos goarch e = some (.error msg)) :
    e.builtin = false ∧ ∃ err, runCmd e.command = .error err
      ∧ msg = "cannot resolve env manifest entry " ++ e.name ++ ": " ++ err := by
  cases hc : e.command with
  | nil =>
    rw [resolveEnvEntry, hc] at h
    exact Option.noConfusion h
  | cons c0 rest =>
    rw [resolveEnvEntry, hc] at h
    simp only [resolveEnvEntryAux] at h
    by_cases hb : e.builtin = true
    · rw [if_pos hb] at h
      exact Except.noConfusion (Option.some.inj h)
    · rw [if_neg hb] at h
      have hbf : e.builtin = false := by
        revert hb
        cases e.builtin <;> simp
      cases hr : runCmd (c0 :: rest) with
      | ok out =>
        rw [hr] at h
        exact Except.noConfusion (Option.some.inj h)
      | error err =>
        rw [hr] at h
        refine ⟨hbf, err, rfl, (Except.error.inj (Option.some.inj h)).symm⟩

theorem resolveEnvEntry_isSome (runCmd : List String → Except String String)
    (goos goarch : String) (e : EnvManifestEntry) (hc : e.command ≠ []) :
    ∃ x, resolveEnvEntry runCmd goos goarch e = some x := by
  cases hcmd : e.command with
  | nil => exact absurd hcmd hc
  | cons c0 rest =>
    rw [resolveEnvEntry, hcmd]
    simp only [resolveEnvEntryAux]
    by_cases hb : e.builtin = true
    · rw [if_pos hb]
      exact ⟨_, rfl⟩
    · rw [if_neg hb]
      exact ⟨_, rfl⟩

theorem resolveAllEnv_ok (runCmd : List String → Except String String)
    (goos goarch : String) :
    ∀ (l res : List EnvManifestEntry),
      resolveAllEnv runCmd goos goarch l = some (.ok res) →
      (∀ e2 ∈ res, ∃ e0 ∈ l, resolveEnvEntry runCmd goos goarch e0 = some (.ok e2))
        ∧ (∀ e0 ∈ l, ∃ e2 ∈ res, resolveEnvEntry runCmd goos goarch e0 = some (.ok e2)) := by
  intro l
  induction l with
  | nil =>
    intro res h
    have : res = [] := (Except.ok.inj (Option.some.inj h)).symm
    subst this
    exact ⟨fun e2 he2 => absurd he2 (by simp), fun e0 he0 => absurd he0 (by simp)⟩
  | cons e t ih =>
    intro res h
    simp only [resolveAllEnv] at h
    cases hre : resolveEnvEntry runCmd goos goarch e with
    | none =>
      rw [hre] at h
      exact Option.noConfusion h
    | some x =>
      rw [hre] at h
      cases x with
      | error msg => exact Except.noConfusion (Option.some.inj h)
      | ok e2 =>
        cases hrest : resolveAllEnv runCmd goos goarch t with
        | none =>
          rw [hrest] at h
          exact Option.noConfusion h
        | some y =>
          rw [hrest] at h
          cases y with
          | error msg => exact Except.noConfusion (Option.some.inj h)
          | ok restRes =>
            have hres : res = e2 :: restRes := (Except.ok.inj (Option.some.inj h)).symm
            subst hres
            obtain ⟨ih1, ih2⟩ := ih restRes hrest
            constructor
            · intro x2 hx2
              rcases List.mem_cons.1 hx2 with h1 | h2
              · exact ⟨e, List.mem_cons_self e t, h1 ▸ hre⟩
              · obtain ⟨e0, he0, hr0⟩ := ih1 x2 h2
                exact ⟨e0, List.mem_cons_of_mem e he0, hr0⟩
            · intro e0 he0
              rcases List.mem_cons.1 he0 with h1 | h2
              · exact ⟨e2, List.mem_cons_self e2 restRes, h1 ▸ hre⟩
              · obtain ⟨x2, hx2, hr0⟩ := ih2 e0 h2
                exact ⟨x2, List.mem_cons_of_mem e2 hx2, hr0⟩

theorem resolveAllEnv_error (runCmd : List String → Except String String)
    (goos goarch : String) :
    ∀ (l : List EnvManifestEntry) (msg : String),
      resolveAllEnv runCmd goos goarch l = some (.error msg) →
      ∃ e0 ∈ l, resolveEnvEntry runCmd goos goarch e0 = some (.error msg) := by
  intro l
  induction l with
  | nil =>
    intro msg h
    exact Except.noConfusion (Option.some.inj h)
  | cons e t ih =>
    intro msg h
    simp only [resolveAllEnv] at h
    cases hre : resolveEnvEntry runCmd goos goarch e with
    | none =>
      rw [hre] at h
      exact Option.noConfusion h
    | some x =>
      rw [hre] at h
      cases x with
      | error m2 =>
        have : m2 = msg := Except.error.inj (Option.some.inj h)
        subst this
        exact ⟨e, List.mem_cons_self e t, hre⟩
      | ok e2 =>
        cases hrest : resolveAllEnv runCmd goos goarch t with
        | none =>
          rw [hrest] at h
          exact Option.noConfusion h
        | some y =>
          rw [hrest] at h
          cases y with
          | error m2 =>
            have hm : m2 = msg := Except.error.inj (Option.some.inj h)
            obtain ⟨e0, he0, hr0⟩ := ih m2 hrest
            exact ⟨e0, List.mem_cons_of_mem e he0, hm ▸ hr0⟩
          | ok restRes => exact Except.noConfusion (Option.some.inj h)

theorem resolveAllEnv_total (runCmd : List String → Except String String)
    (goos goarch : String) :
    ∀ (l : List EnvManifestEntry), (∀ e ∈ l, e.command ≠ []) →
      ∃ r, resolveAllEnv runCmd goos goarch l = some r := by
  intro l
  induction l with
  | nil => exact fun _ => ⟨.ok [], rfl⟩
  | cons e t ih =>
    intro hwf
    obtain ⟨x, hx⟩ := resolveEnvEntry_isSome runCmd goos goarch e
      (hwf e (List.mem_cons_self e t))
    obtain ⟨r, hr⟩ := ih (fun e2 he2 => hwf e2 (List.mem_cons_of_mem e he2))
    cases x with
    | error msg => exact ⟨.error msg, by simp only [resolveAllEnv, hx]⟩
    | ok e2 =>
      cases r with
      | error msg => exact ⟨.error msg, by simp only [resolveAllEnv, hx, hr]⟩
      | ok res => exact ⟨.ok (e2 :: res), by simp only [resolveAllEnv, hx, hr]⟩

theorem keyedInsert_mem {α : Type} :
    ∀ (m : List (String × α)) (k : String) (v : α) (p : String × α),
      p ∈ keyedInsert m k v → p = (k, v) ∨ p ∈ m := by
  intro m
  induction m with
  | nil =>
    intro k v p hp
    simp only [keyedInsert] at hp
    exact Or.inl (List.mem_singleton.1 hp)
  | cons hd tl ih =>
    intro k v p hp
    obtain ⟨k0, v0⟩ := hd
    by_cases hk : k0 = k
    · rw [show keyedInsert ((k0, v0) :: tl) k v = (k, v) :: tl from by
        simp [keyedInsert, hk]] at hp
      rcases List.mem_cons.1 hp with h1 | h2
      · exact Or.inl h1
      · exact Or.inr (List.mem_cons_of_mem _ h2)
    · rw [show keyedInsert ((k0, v0) :: tl) k v = (k0, v0) :: keyedInsert tl k v from by
        simp [keyedInsert, hk]] at hp
      rcases List.mem_cons.1 hp with h1 | h2
      · exact Or.inr (List.mem_cons.2 (Or.inl h1))
      · rcases ih k v p h2 with h3 | h4
        · exact Or.inl h3
        · exact Or.inr (List.mem_cons_of_mem _ h4)

theorem keyedInsertAll_mem {α : Type} :
    ∀ (src dst : List (String × α)) (p : String × α),
      p ∈ keyedInsertAll dst src → p ∈ dst ∨ p ∈ src := by
  intro src
  induction src with
  | nil =>
    intro dst p hp
    exact Or.inl hp
  | cons hd tl ih =>
    intro dst p hp
    obtain ⟨k0, v0⟩ := hd
    have hp2 : p ∈ keyedInsertAll (keyedInsert dst k0 v0) tl := hp
    rcases ih (keyedInsert dst k0 v0) p hp2 with h1 | h2
    · rcases keyedInsert_mem dst k0 v0 p h1 with h3 | h4
      · exact Or.inr (h3 ▸ List.mem_cons_self _ _)
      · exact Or.inl h4
    · exact Or.inr (List.mem_cons_of_mem _ h2)

theorem keyedLookup_isSome_iff {α : Type} :
    ∀ (m : List (String × α)) (n : String),
      (keyedLookup m n).isSome = true ↔ ∃ p ∈ m, p.1 = n := by
  intro m
  induction m with
  | nil =>
    intro n
    simp [keyedLookup]
  | cons hd tl ih =>
    intro n
    obtain ⟨k0, v0⟩ := hd
    rw [keyedLookup_cons]
    by_cases hk : k0 = n
    · rw [if_pos hk]
      simp only [Option.isSome_some, true_iff]
      exact ⟨(k0, v0), List.mem_cons_self _ _, hk⟩
    · rw [if_neg hk, ih]
      constructor
      · rintro ⟨p, hp, hn⟩
        exact ⟨p, List.mem_cons_of_mem _ hp, hn⟩
      · rintro ⟨p, hp, hn⟩
        rcases List.mem_cons.1 hp with h1 | h2
        · exact absurd (by rw [h1] at hn; exact hn) hk
        · exact ⟨p, h2, hn⟩

theorem keyedLookupLast_isSome_iff {α : Type} (m : List (String × α)) (n : String) :
    (keyedLookupLast m n).isSome = true ↔ ∃ p ∈ m, p.1 = n := by
  unfold keyedLookupLast
  rw [keyedLookup_isSome_iff]
  constructor
  · rintro ⟨p, hp, hn⟩
    exact ⟨p, List.mem_reverse.1 hp, hn⟩
  · rintro ⟨p, hp, hn⟩
    exact ⟨p, List.mem_reverse.2 hp, hn⟩

theorem option_or_isSome {α : Type} (a b : Option α) :
    ((a.or b).isSome = true) ↔ (a.isSome = true ∨ b.isSome = true) := by
  cases a <;> simp [Option.or]

theorem option_or_none {α : Type} (a : Option α) : a.or none = a := by
  cases a <;> rfl

theorem keyedByName_mem (p : String × EnvManifestEntry) (l : List EnvManifestEntry) :
    p ∈ keyedByName l ↔ ∃ e ∈ l, p = (e.name, e) := by
  unfold keyedByName
  rw [List.mem_map]
  constructor
  · rintro ⟨e, he, hp⟩
    exact ⟨e, he, hp.symm⟩
  · rintro ⟨e, he, hp⟩
    exact ⟨e, he, hp.symm⟩

theorem envMap_provenance (entries : List EnvManifestEntry) (tpes : List PackageType) :
    ∀ p ∈ envMap entries tpes,
      p.1 = p.2.name ∧ (p.2 ∈ entries ∨ p.2 ∈ (tpes.map defaultEnvEntries).flatten
        ∨ p.2 ∈ defaultEnvEntriesBase) := by
  intro p hp
  unfold envMap at hp
  rcases keyedInsertAll_mem _ _ p hp with h1 | h2
  · rcases keyedInsertAll_mem _ _ p h1 with h3 | h4
    · rcases keyedInsertAll_mem _ _ p h3 with h5 | h6
      · exact absurd h5 (by simp)
      · obtain ⟨e, he, hpe⟩ := (keyedByName_mem p _).1 h6
        subst hpe
        exact ⟨rfl, Or.inr (Or.inr he)⟩
    · obtain ⟨e, he, hpe⟩ := (keyedByName_mem p _).1 h4
      subst hpe
      exact ⟨rfl, Or.inr (Or.inl he)⟩
  · obtain ⟨e, he, hpe⟩ := (keyedByName_mem p _).1 h2
    subst hpe
    exact ⟨rfl, Or.inl he⟩

theorem defaultBase_wf : ∀ e ∈ defaultEnvEntriesBase, e.command ≠ [] := by decide

theorem defaultTpe_wf : ∀ (t : PackageType), ∀ e ∈ defaultEnvEntries t, e.command ≠ [] := by
  intro t
  cases t <;> decide

theorem envMap_lookup (entries : List EnvManifestEntry) (tpes : List PackageType) (n : String) :
    keyedLookup (envMap entries tpes) n =
      ((keyedLookupLast (keyedByName entries) n).or
        ((keyedLookupLast (keyedByName ((tpes.map defaultEnvEntries).flatten)) n).or
          (keyedLookupLast (keyedByName defaultEnvEntriesBase) n))) := by
  unfold envMap
  rw [keyedInsertAll_lookup, keyedInsertAll_lookup, keyedInsertAll_lookup]
  rw [show keyedLookup ([] : List (String × EnvManifestEntry)) n = none from rfl]
  rw [option_or_none]

theorem keyedByName_name_iff (l : List EnvManifestEntry) (n : String) :
    (∃ p ∈ keyedByName l, p.1 = n) ↔ ∃ e ∈ l, e.name = n := by
  constructor
  · rintro ⟨p, hp, h1⟩
    obtain ⟨e, he, hpe⟩ := (keyedByName_mem p l).1 hp
    subst hpe
    exact ⟨e, he, h1⟩
  · rintro ⟨e, he, h1⟩
    exact ⟨(e.name, e), (keyedByName_mem _ l).2 ⟨e, he, rfl⟩, h1⟩

theorem flatten_name_iff (tpes : List PackageType) (n : String) :
    (∃ e ∈ (tpes.map defaultEnvEntries).flatten, e.name = n) ↔
      ∃ t ∈ tpes, ∃ e ∈ defaultEnvEntries t, e.name = n := by
  constructor
  · rintro ⟨e, he, h1⟩
    rw [List.mem_flatten] at he
    obtain ⟨l, hl, hel⟩ := he
    rw [List.mem_map] at hl
    obtain ⟨t, ht, hlt⟩ := hl
    exact ⟨t, ht, e, hlt ▸ hel, h1⟩
  · rintro ⟨t, ht, e, he, h1⟩
    exact ⟨e, List.mem_flatten.2 ⟨defaultEnvEntries t, List.mem_map.2 ⟨t, ht, rfl⟩, he⟩, h1⟩

theorem envMap_names (entries : List EnvManifestEntry) (tpes : List PackageType) (n : String) :
    (keyedLookup (envMap entries tpes) n).isSome = true ↔
      ((∃ e ∈ entries, e.name = n) ∨ (∃ e ∈ defaultEnvEntriesBase, e.name = n)
        ∨ (∃ t ∈ tpes, ∃ e ∈ defaultEnvEntries t, e.name = n)) := by
  rw [envMap_lookup, option_or_isSome, option_or_isSome,
    keyedLookupLast_isSome_iff, keyedLookupLast_isSome_iff, keyedLookupLast_isSome_iff,
    keyedByName_name_iff, keyedByName_name_iff, keyedByName_name_iff, flatten_name_iff]
  constructor
  · rintro (h | h | h)
    · exact Or.inl h
    · exact Or.inr (Or.inr h)
    · exact Or.inr (Or.inl h)
  · rintro (h | h | h)
    · exact Or.inl h
    · exact Or.inr (Or.inr h)
    · exact Or.inr (Or.inl h)

/-- C6 (amended): for every application, the resolved environment manifest
is the union of the user-declared entries with the always-present builtin
defaults (`os` and `arch`) and the default entries for exactly the package
types present; user entries override defaults by name (final conjunct, at
map-lookup level); every builtin entry resolves to the host operating
system or architecture value, every other entry's value is the
whitespace-trimmed output of its command; the result is sorted by entry
name; and a failing command aborts the load with an error naming the
entry. -/
theorem c6_environment_manifest (entries : List EnvManifestEntry) (tpes : List PackageType)
    (runCmd : List String → Except String String) (goos goarch : String)
    (hwf : ∀ e ∈ entries, e.builtin = false ∧ e.command ≠ []) :
    ∃ r, buildEnvironmentManifest entries tpes runCmd goos goarch = some r
      ∧ (∀ msg, r = .error msg →
          ∃ e err, e ∈ (envMap entries tpes).map Prod.snd ∧ e.builtin = false
            ∧ runCmd e.command = .error err
            ∧ msg = "cannot resolve env manifest entry " ++ e.name ++ ": " ++ err)
      ∧ (∀ res, r = .ok res →
          sortedByName res = true
          ∧ (∀ n, (∃ e ∈ res, e.name = n) ↔
              ((∃ e ∈ entries, e.name = n)
                ∨ (∃ e ∈ defaultEnvEntriesBase, e.name = n)
                ∨ (∃ t ∈ tpes, ∃ e ∈ defaultEnvEntries t, e.name = n)))
          ∧ (∀ e2 ∈ res, ∃ e0, e0 ∈ (envMap entries tpes).map Prod.snd
              ∧ e2.name = e0.name ∧ e2.command = e0.command ∧ e2.builtin = e0.builtin
              ∧ (e0.builtin = true →
                  (e0.command.head? = some "goarch" → e2.value = goarch)
                  ∧ (e0.command.head? = some "goos" → e2.value = goos))
              ∧ (e0.builtin = false →
                  ∃ out, runCmd e0.command = .ok out ∧ e2.value = out.trim)))
      ∧ (∀ n, keyedLookup (envMap entries tpes) n =
          ((keyedLookupLast (keyedByName entries) n).or
            ((keyedLookupLast (keyedByName ((tpes.map defaultEnvEntries).flatten)) n).or
              (keyedLookupLast (keyedByName defaultEnvEntriesBase) n)))) := by
  have hvalwf : ∀ e ∈ (envMap entries tpes).map Prod.snd, e.command ≠ [] := by
    intro e he
    rw [List.mem_map] at he
    obtain ⟨p, hp, hpe⟩ := he
    obtain ⟨_, hsrc⟩ := envMap_provenance entries tpes p hp
    rcases hsrc with h1 | h2 | h3
    · exact hpe ▸ (hwf p.2 h1).2
    · rw [List.mem_flatten] at h2
      obtain ⟨l, hl, hel⟩ := h2
      rw [List.mem_map] at hl
      obtain ⟨t, _, hlt⟩ := hl
      exact hpe ▸ defaultTpe_wf t p.2 (hlt ▸ hel)
    · exact hpe ▸ defaultBase_wf p.2 h3
  obtain ⟨r0, hr0⟩ := resolveAllEnv_total runCmd goos goarch _ hvalwf
  cases r0 with
  | error msg =>
    refine ⟨.error msg, by simp only [buildEnvironmentManifest, hr0], ?_, ?_,
      fun n => envMap_lookup entries tpes n⟩
    · intro msg2 hmsg2
      have hm : msg = msg2 := Except.error.inj hmsg2
      subst hm
      obtain ⟨e0, he0, hre⟩ := resolveAllEnv_error runCmd goos goarch _ msg hr0
      obtain ⟨hbf, err, hrun, hmsg⟩ := resolveEnvEntry_error_spec runCmd goos goarch e0 msg hre
      exact ⟨e0, err, he0, hbf, hrun, hmsg⟩
    · intro res hres
      exact Except.noConfusion hres
  | ok res0 =>
    refine ⟨.ok (sortByName res0), by simp only [buildEnvironmentManifest, hr0], ?_, ?_,
      fun n => envMap_lookup entries tpes n⟩
    · intro msg hmsg
      exact Except.noConfusion hmsg
    · intro res hres
      have hres2 : res = sortByName res0 := (Except.ok.inj hres).symm
      subst hres2
      obtain ⟨hfwd, hbwd⟩ := resolveAllEnv_ok runCmd goos goarch _ res0 hr0
      refine ⟨sortByName_sorted res0, ?_, ?_⟩
      · intro n
        rw [← envMap_names entries tpes n]
        constructor
        · rintro ⟨e2, he2, hn⟩
          rw [mem_sortByName] at he2
          obtain ⟨e0, he0, hre⟩ := hfwd e2 he2
          obtain ⟨hname, _, _, _, _⟩ := resolveEnvEntry_ok_spec runCmd goos goarch e0 e2 hre
          rw [List.mem_map] at he0
          obtain ⟨p, hp, hpe⟩ := he0
          have hkey := (envMap_provenance entries tpes p hp).1
          exact (keyedLookup_isSome_iff _ n).2 ⟨p, hp, by rw [hkey, hpe, ← hname, hn]⟩
        · intro hsome
          obtain ⟨p, hp, hp1⟩ := (keyedLookup_isSome_iff _ n).1 hsome
          have hkey := (envMap_provenance entries tpes p hp).1
          have hval : p.2 ∈ (envMap entries tpes).map Prod.snd :=
            List.mem_map.2 ⟨p, hp, rfl⟩
          obtain ⟨e2, he2, hre⟩ := hbwd p.2 hval
          obtain ⟨hname, _, _, _, _⟩ := resolveEnvEntry_ok_spec runCmd goos goarch p.2 e2 hre
          refine ⟨e2, (mem_sortByName e2 res0).2 he2, ?_⟩
          rw [hname, ← hkey, hp1]
      · intro e2 he2
        rw [mem_sortByName] at he2
        obtain ⟨e0, he0, hre⟩ := hfwd e2 he2
        obtain ⟨h1, h2, h3, h4, h5⟩ := resolveEnvEntry_ok_spec runCmd goos goarch e0 e2 hre
        exact ⟨e0, he0, h1, h2, h3, h4, h5⟩

/-- C6 witness: the manifest theorem applied at a concrete application
with one user entry overriding nothing, a Go package present, and a
command oracle; the resulting manifest resolves and contains the builtin
names. -/
theorem c6_environment_manifest_witness :
    ∃ r, buildEnvironmentManifest
        [{ name := "docker", command := ["docker", "-v"], value := "", builtin := false }]
        [.goPkg] (fun _ => .ok " out ") "linux" "amd64" = some r := by
  obtain ⟨r, hr, _⟩ := c6_environment_manifest
    [{ name := "docker", command := ["docker", "-v"], value := "", builtin := false }]
    [.goPkg] (fun _ => .ok " out ") "linux" "amd64" (by decide)
  exact ⟨r, hr⟩

/-! ## C7: the environment-manifest hash (part_007 lines 54-82) -/

/-- The characters `Write` prints for one entry (part_007 line 56:
`fmt.Fprintf(out, "%s: %s\n", e.Name, e.Value)`). -/
def manifestLineChars (e : EnvManifestEntry) : List Char :=
  e.name.data ++ ':' :: ' ' :: e.value.data ++ ['\n']

/-- The byte stream `EnvironmentManifest.Write` feeds into the hash
(part_007 lines 54-62): the concatenation of the `name: value`-newline
lines in manifest order. -/
def manifestWriteChars : List EnvManifestEntry → List Char
  | [] => []
  | e :: rest => manifestLineChars e ++ manifestWriteChars rest

/-- The written stream as a string. -/
def manifestWrite (mf : List EnvManifestEntry) : String :=
  String.mk (manifestWriteChars mf)

/-- Embeds `EnvironmentManifest.Hash` (part_007 lines 65-82): the keyed
highwayhash (seeded with the fixed 32-byte `contentHashKey` compiled into
the binary) of the written stream, hex-encoded lowercase.  The external
keyed hash together with the hex encoding is passed in as the oracle
`keyedHashHex`. -/
def manifestHash (keyedHashHex : String → String) (mf : List EnvManifestEntry) : String :=
  keyedHashHex (manifestWrite mf)

/-- The line content before the trailing newline. -/
def manifestLineContent (e : EnvManifestEntry) : List Char :=
  e.name.data ++ ':' :: ' ' :: e.value.data

theorem manifestWriteChars_cons (e : EnvManifestEntry) (rest : List EnvManifestEntry) :
    manifestWriteChars (e :: rest) =
      manifestLineContent e ++ '\n' :: manifestWriteChars rest := by
  show manifestLineChars e ++ manifestWriteChars rest = _
  rw [manifestLineChars, manifestLineContent]
  simp [List.append_assoc]

theorem split_at_marker {c : Char} :
    ∀ (a b a' b' : List Char), c ∉ a → c ∉ a' →
      a ++ c :: b = a' ++ c :: b' → a = a' ∧ b = b' := by
  intro a
  induction a with
  | nil =>
    intro b a' b' _ hc' h
    cases a' with
    | nil => exact ⟨rfl, List.cons.inj h |>.2⟩
    | cons x xs =>
      rw [List.nil_append, List.cons_append] at h
      obtain ⟨h1, _⟩ := List.cons.inj h
      exact absurd (h1 ▸ List.mem_cons_self x xs) hc'
  | cons x xs ih =>
    intro b a' b' hc hc' h
    cases a' with
    | nil =>
      rw [List.cons_append, List.nil_append] at h
      obtain ⟨h1, _⟩ := List.cons.inj h
      exact absurd (h1 ▸ List.mem_cons_self x xs) hc
    | cons y ys =>
      rw [List.cons_append, List.cons_append] at h
      obtain ⟨h1, h2⟩ := List.cons.inj h
      have hcx : c ∉ xs := fun hmem => hc (List.mem_cons_of_mem x hmem)
      have hcy : c ∉ ys := fun hmem => hc' (List.mem_cons_of_mem y hmem)
      obtain ⟨h3, h4⟩ := ih b ys b' hcx hcy h2
      exact ⟨by rw [h1, h3], h4⟩

theorem string_data_inj {s1 s2 : String} (h : s1.data = s2.data) : s1 = s2 := by
  cases s1 with
  | mk d1 =>
    cases s2 with
    | mk d2 =>
      exact congrArg String.mk h

theorem manifestWriteChars_nil_iff :
    ∀ mf : List EnvManifestEntry, manifestWriteChars mf = [] → mf = [] := by
  intro mf h
  cases mf with
  | nil => rfl
  | cons e rest =>
    rw [manifestWriteChars_cons] at h
    exact absurd h (by simp)

theorem newline_not_in_content (e : EnvManifestEntry)
    (hn : '\n' ∉ e.name.data) (hv : '\n' ∉ e.value.data) :
    '\n' ∉ manifestLineContent e := by
  intro hmem
  rw [manifestLineContent] at hmem
  rcases List.mem_append.1 hmem with h1 | h2
  · exact hn h1
  · rcases List.mem_cons.1 h2 with h3 | h4
    · exact absurd h3 (by decide)
    · rcases List.mem_cons.1 h4 with h5 | h6
      · exact absurd h5 (by decide)
      · exact hv h6

theorem content_inj (e1 e2 : EnvManifestEntry)
    (hc1 : ':' ∉ e1.name.data) (hc2 : ':' ∉ e2.name.data)
    (h : manifestLineContent e1 = manifestLineContent e2) :
    e1.name = e2.name ∧ e1.value = e2.value := by
  rw [manifestLineContent, manifestLineContent] at h
  obtain ⟨h1, h2⟩ := split_at_marker e1.name.data (' ' :: e1.value.data)
    e2.name.data (' ' :: e2.value.data) hc1 hc2 h
  obtain ⟨_, h3⟩ := List.cons.inj h2
  exact ⟨string_data_inj h1, string_data_inj h3⟩

theorem manifestWrite_inj :
    ∀ (mf1 mf2 : List EnvManifestEntry),
      (∀ e ∈ mf1 ++ mf2, ':' ∉ e.name.data ∧ '\n' ∉ e.name.data ∧ '\n' ∉ e.value.data) →
      manifestWriteChars mf1 = manifestWriteChars mf2 →
      mf1.map (fun e => (e.name, e.value)) = mf2.map (fun e => (e.name, e.value)) := by
  intro mf1
  induction mf1 with
  | nil =>
    intro mf2 _ h
    have : mf2 = [] := manifestWriteChars_nil_iff mf2 h.symm
    subst this
    rfl
  | cons e1 r1 ih =>
    intro mf2 hyg h
    cases mf2 with
    | nil =>
      rw [manifestWriteChars_cons] at h
      exact absurd h (by simp [manifestWriteChars])
    | cons e2 r2 =>
      rw [manifestWriteChars_cons, manifestWriteChars_cons] at h
      have hyg1 := hyg e1 (List.mem_append_left _ (List.mem_cons_self e1 r1))
      have hyg2 := hyg e2 (List.mem_append_right _ (List.mem_cons_self e2 r2))
      obtain ⟨hcont, hrest⟩ := split_at_marker (manifestLineContent e1)
        (manifestWriteChars r1) (manifestLineContent e2) (manifestWriteChars r2)
        (newline_not_in_content e1 hyg1.2.1 hyg1.2.2)
        (newline_not_in_content e2 hyg2.2.1 hyg2.2.2) h
      obtain ⟨hname, hvalue⟩ := content_inj e1 e2 hyg1.1 hyg2.1 hcont
      have hygr : ∀ e ∈ r1 ++ r2, ':' ∉ e.name.data ∧ '\n' ∉ e.name.data
          ∧ '\n' ∉ e.value.data := by
        intro e he
        rcases List.mem_append.1 he with h1 | h2
        · exact hyg e (List.mem_append_left _ (List.mem_cons_of_mem e1 h1))
        · exact hyg e (List.mem_append_right _ (List.mem_cons_of_mem e2 h2))
      have ihr := ih r2 hygr hrest
      rw [List.map_cons, List.map_cons, ihr, hname, hvalue]

theorem manifestWriteChars_of_pairs :
    ∀ (mf1 mf2 : List EnvManifestEntry),
      mf1.map (fun e => (e.name, e.value)) = mf2.map (fun e => (e.name, e.value)) →
      manifestWriteChars mf1 = manifestWriteChars mf2 := by
  intro mf1
  induction mf1 with
  | nil =>
    intro mf2 h
    cases mf2 with
    | nil => rfl
    | cons e2 r2 => exact absurd h (by simp)
  | cons e1 r1 ih =>
    intro mf2 h
    cases mf2 with
    | nil => exact absurd h (by simp)
    | cons e2 r2 =>
      rw [List.map_cons, List.map_cons] at h
      obtain ⟨h1, h2⟩ := List.cons.inj h
      have hn : e1.name = e2.name := congrArg Prod.fst h1
      have hv : e1.value = e2.value := congrArg Prod.snd h1
      rw [manifestWriteChars_cons, manifestWriteChars_cons, ih r2 h2]
      rw [manifestLineContent, manifestLineContent, hn, hv]

/-- C7 counterexample: the claim says changing any entry changes the
hashed input.  The manifests `[(a, b: c)]` and `[(a: b, c)]` differ in
their single entry yet write the identical byte stream `a: b: c` plus
newline, hence hash to the same digest under any keyed hash. -/
theorem c7_hash_input_counterexample :
    manifestWrite [{ name := "a", command := [], value := "b: c", builtin := false }]
        = manifestWrite [{ name := "a: b", command := [], value := "c", builtin := false }]
      ∧ ([{ name := "a", command := [], value := "b: c", builtin := false }]
            : List EnvManifestEntry).map (fun e => (e.name, e.value))
          ≠ ([{ name := "a: b", command := [], value := "c", builtin := false }]
            : List EnvManifestEntry).map (fun e => (e.name, e.value))
      ∧ ∀ keyedHashHex : String → String,
          manifestHash keyedHashHex
              [{ name := "a", command := [], value := "b: c", builtin := false }]
            = manifestHash keyedHashHex
              [{ name := "a: b", command := [], value := "c", builtin := false }] := by
  refine ⟨rfl, by decide, fun hh => rfl⟩

/-- C7 (amended): the manifest hash is the keyed digest (fixed 32-byte
key, lowercase hex) of exactly the concatenation of the `name: value`
lines in manifest order, so it is a deterministic function of the ordered
(name, value) sequence; and provided entry names contain no colon and no
newline and values contain no newline, any reordering of distinct entries
or change to an entry changes the hashed input (in general, names
containing `: ` make distinct manifests collide). -/
theorem c7_manifest_hash (keyedHashHex : String → String)
    (mf1 mf2 : List EnvManifestEntry) :
    (mf1.map (fun e => (e.name, e.value)) = mf2.map (fun e => (e.name, e.value)) →
        manifestHash keyedHashHex mf1 = manifestHash keyedHashHex mf2)
      ∧ ((∀ e ∈ mf1 ++ mf2, ':' ∉ e.name.data ∧ '\n' ∉ e.name.data ∧ '\n' ∉ e.value.data) →
          mf1.map (fun e => (e.name, e.value)) ≠ mf2.map (fun e => (e.name, e.value)) →
          manifestWrite mf1 ≠ manifestWrite mf2) := by
  constructor
  · intro h
    unfold manifestHash manifestWrite
    rw [manifestWriteChars_of_pairs mf1 mf2 h]
  · intro hyg hne hw
    refine hne (manifestWrite_inj mf1 mf2 hyg ?_)
    have : (manifestWrite mf1).data = (manifestWrite mf2).data := by rw [hw]
    exact this

/-- C7 witness: the hash theorem applied at concrete manifests: two
manifests with the same (name, value) sequence hash alike, and two
well-formed manifests differing in one value write different streams. -/
theorem c7_manifest_hash_witness :
    manifestHash (fun s => s)
          [{ name := "os", command := [], value := "linux", builtin := false }]
        = manifestHash (fun s => s)
          [{ name := "os", command := ["uname"], value := "linux", builtin := true }]
      ∧ manifestWrite [{ name := "os", command := [], value := "linux", builtin := false }]
          ≠ manifestWrite [{ name := "os", command := [], value := "darwin", builtin := false }] :=
  ⟨(c7_manifest_hash (fun s => s)
      [{ name := "os", command := [], value := "linux", builtin := false }]
      [{ name := "os", command := ["uname"], value := "linux", builtin := true }]).1 rfl,
   (c7_manifest_hash (fun s => s)
      [{ name := "os", command := [], value := "linux", builtin := false }]
      [{ name := "os", command := [], value := "darwin", builtin := false }]).2
    (by decide) (by decide)⟩

end Gorpa
